import Mathlib

namespace Kycli

mutual

/-- Tagged dynamic value type of the engine's Codec (spec §9): null marker,
booleans, integers, decimal floating literals (`mantissa·10^exponent`),
strings, ordered sequences and nested mappings. Modelled from the spec: the
engine source (`kycli/kycore`) is not under `src/`; values are kept in parsed
form, the Codec's canonical serialization being injective on this type
(§4.1, §9), so serialize-then-deserialize is the identity. -/
inductive Value where
  | null : Value
  | bool (b : Bool) : Value
  | int (n : Int) : Value
  | float (mantissa : Int) (exponent : Int) : Value
  | str (s : String) : Value
  | list (xs : VList) : Value
  | map (kvs : VMap) : Value
  deriving Repr, DecidableEq

/-- Ordered sequence of values (a Python list). -/
inductive VList where
  | nil : VList
  | cons (hd : Value) (tl : VList) : VList
  deriving Repr, DecidableEq

/-- Nested mapping (a Python dict), in insertion order. -/
inductive VMap where
  | nil : VMap
  | cons (k : String) (v : Value) (tl : VMap) : VMap
  deriving Repr, DecidableEq

end

/-- Workspace collection type tag (spec §3, Workspace). -/
inductive WsType where
  | kv | queue | stack | priority_queue
  deriving Repr, DecidableEq

/-- History operation kinds (spec §3, HistoryRecord; §4.6 adds `expire`). -/
inductive HOp where
  | create | update | delete | expire
  deriving Repr, DecidableEq

/-- A kv-mode entry (spec §3): value, audit timestamps, optional expiry. -/
structure Entry where
  value : Value
  createdAt : Nat
  updatedAt : Nat
  expiresAt : Option Nat
  deriving Repr, DecidableEq

/-- A collection-mode item (spec §3): monotone id, value, priority. -/
structure Item where
  itemId : Nat
  value : Value
  priority : Int
  createdAt : Nat
  deriving Repr, DecidableEq

/-- Audit history record (spec §3). -/
structure HistoryRecord where
  seq : Nat
  key : String
  value : Value
  op : HOp
  timestamp : Nat
  deriving Repr, DecidableEq

/-- Tombstoned-key revival record (spec §3, ArchiveRecord). -/
structure ArchiveRecord where
  key : String
  value : Value
  deletedAt : Nat
  deriving Repr, DecidableEq

/-- Engine state for one workspace. Modelled from the spec (§3, §6): the
`entries`, `items`, `history` and `archive` tables of the backing file, the
autoincrement counters, and the once-settable workspace type tag. `entries`
is an association list in insertion order with unique keys; `items` is kept
in ascending `itemId` order; `history` is append-only, oldest first. -/
structure Kycore where
  wsType : WsType
  typeSet : Bool
  entries : List (String × Entry)
  items : List Item
  nextItemId : Nat
  history : List HistoryRecord
  nextSeq : Nat
  archive : List ArchiveRecord
  deriving Repr, DecidableEq

/-- Freshly initialised engine on an empty backing file: implicitly kv
(spec §3; `test_strict_compatibility_negative` asserts a fresh store has
`get_type() == "kv"`). -/
def Kycore.init : Kycore :=
  { wsType := .kv, typeSet := false, entries := [], items := [],
    nextItemId := 1, history := [], nextSeq := 1, archive := [] }

/-- Error kinds surfaced by the engine (spec §7). -/
inductive KyError where
  | validation (msg : String)
  | typeMismatch (msg : String)
  | notFound
  deriving Repr, DecidableEq

/-- Result of `save` (spec §4.7). -/
inductive SaveResult where
  | created | overwritten | nochange
  deriving Repr, DecidableEq

/-- Result of `getkey` (spec §4.7: a specific not-found string distinguishes
"key not found" from "sub-path not found"). -/
inductive GetResult where
  | found (v : Value)
  | keyNotFound
  | subpathNotFound
  deriving Repr, DecidableEq

/-- An entry is live at `now` when it has no expiry or its expiry is still in
the future; `expires_at ≤ now` means expired (spec §3 invariant 6). -/
def Entry.live (e : Entry) (now : Nat) : Bool :=
  match e.expiresAt with
  | none => true
  | some t => decide (now < t)

/-- Association-list lookup over the entries table. -/
def lookupEntry (es : List (String × Entry)) (k : String) : Option Entry :=
  (es.find? (fun p => p.1 = k)).map (fun p => p.2)

/-- Insert-or-replace into the entries table, keeping insertion order. -/
def setEntry : List (String × Entry) → String → Entry → List (String × Entry)
  | [], k, e => [(k, e)]
  | (k', e') :: rest, k, e =>
      if k' = k then (k, e) :: rest else (k', e') :: setEntry rest k e

/-- Remove a key from the entries table. -/
def removeEntry (es : List (String × Entry)) (k : String) :
    List (String × Entry) :=
  es.eraseP (fun p => p.1 = k)

/-- Strip leading and trailing whitespace from a character list. -/
def trimChars (l : List Char) : List Char :=
  ((l.dropWhile Char.isWhitespace).reverse.dropWhile Char.isWhitespace).reverse

/-- Whitespace trimming of a key (Python `str.strip`, spec §3: keys are
non-empty trimmed strings). -/
def strTrim (s : String) : String := ⟨trimChars s.data⟩

/-- Split a character list on the dot separator. -/
def splitCharList : List Char → List (List Char)
  | [] => [[]]
  | c :: rest =>
      let r := splitCharList rest
      if c = '.' then [] :: r
      else
        match r with
        | [] => [[c]]
        | hd :: tl => (c :: hd) :: tl

/-- Split a key on dots into its path segments (Python `str.split(".")`). -/
def splitDots (s : String) : List String :=
  (splitCharList s.data).map (fun l => ⟨l⟩)

/-- Value of a decimal digit character. -/
def digitVal (c : Char) : Option Nat :=
  if c.isDigit then some (c.toNat - '0'.toNat) else none

/-- Accumulating decimal parse of a digit run; `none` accumulator means no
digit has been consumed yet, so an empty run fails. -/
def parseDigits : List Char → Option Nat → Option Nat
  | [], acc => acc
  | c :: rest, acc =>
      match digitVal c, acc with
      | some d, some n => parseDigits rest (some (n * 10 + d))
      | some d, none => parseDigits rest (some d)
      | none, _ => none

/-- Parse an optionally signed decimal integer literal (Python `int(t)`). -/
def parseInt (s : String) : Option Int :=
  match s.data with
  | '-' :: ds => (parseDigits ds none).map (fun n => -(n : Int))
  | ds => (parseDigits ds none).map (fun n => (n : Int))

/-- Append the HistoryRecord of a committed mutation and advance the
monotone sequence number (spec §3, §4.5: every committed mutation appends
a HistoryRecord; history is append-only). -/
def commitMutation (s : Kycore) (k : String) (v : Value) (op : HOp)
    (now : Nat) : Kycore :=
  { s with history := s.history ++ [⟨s.nextSeq, k, v, op, now⟩],
           nextSeq := s.nextSeq + 1 }

/-- Modelled from the spec (§4.7 `save`): kv-only; the key is trimmed and
must be non-empty; the value must not be the null marker; saving a value
whose canonical encoding equals the stored one is `nochange` and writes no
history record; otherwise the entry is created or overwritten with
`expires_at = now + ttl` and a history record is committed. An expired row
under the same key is replaced as a fresh create (spec §3 invariant 6). -/
def save (s : Kycore) (key : String) (v : Value) (ttl : Option Nat)
    (now : Nat) : Except KyError (SaveResult × Kycore) :=
  if s.wsType ≠ WsType.kv then
    .error (.typeMismatch "'kys' not supported on this workspace type")
  else
    let k := strTrim key
    if k = "" then .error (.validation "Key cannot be empty")
    else if v = Value.null then .error (.validation "Value cannot be None")
    else
      let e' : Entry :=
        { value := v, createdAt := now, updatedAt := now,
          expiresAt := ttl.map (fun d => now + d) }
      match lookupEntry s.entries k with
      | some e =>
          if e.live now then
            if e.value = v then .ok (.nochange, s)
            else
              .ok (.overwritten,
                commitMutation
                  { s with entries :=
                      setEntry s.entries k { e' with createdAt := e.createdAt } }
                  k v .update now)
          else
            .ok (.created,
              commitMutation { s with entries := setEntry s.entries k e' }
                k v .create now)
      | none =>
          .ok (.created,
            commitMutation { s with entries := setEntry s.entries k e' }
              k v .create now)

/-- Lookup in a nested mapping. -/
def VMap.find : VMap → String → Option Value
  | .nil, _ => none
  | .cons k v tl, p => if k = p then some v else VMap.find tl p

/-- Positional lookup in a value sequence. -/
def VList.get : VList → Nat → Option Value
  | .nil, _ => none
  | .cons hd _, 0 => some hd
  | .cons _ tl, n + 1 => VList.get tl n

/-- One step of dotted-path traversal: a mapping is indexed by key, a
sequence by integer position (spec §4.7 `getkey`). -/
def pathStep (v : Value) (p : String) : Option Value :=
  match v with
  | .map kvs => kvs.find p
  | .list xs =>
      match p.toNat? with
      | some i => xs.get i
      | none => none
  | _ => none

/-- Dotted-path traversal over a stored value. -/
def pathGet : Value → List String → Option Value
  | v, [] => some v
  | v, p :: ps =>
      match pathStep v p with
      | some w => pathGet w ps
      | none => none

/-- Modelled from the spec (§4.7 `getkey`): kv-only read. The full
(trimmed) key is looked up first; an expired row is treated as not found
(spec §3 invariant 6) without falling through to path traversal. When the
full key is absent and contains dots, the head segment is looked up and the
remaining segments traversed, distinguishing "key not found" from "sub-path
not found". The read itself mutates nothing; the lazy removal of an expired
row is `purgeExpired` below. -/
def getkey (s : Kycore) (key : String) (now : Nat) :
    Except KyError GetResult :=
  if s.wsType ≠ WsType.kv then
    .error (.typeMismatch "'kyg' not supported on this workspace type")
  else
    let k := strTrim key
    match lookupEntry s.entries k with
    | some e => if e.live now then .ok (.found e.value) else .ok .keyNotFound
    | none =>
        match splitDots k with
        | root :: p :: ps =>
            match lookupEntry s.entries root with
            | some e =>
                if e.live now then
                  match pathGet e.value (p :: ps) with
                  | some v => .ok (.found v)
                  | none => .ok .subpathNotFound
                else .ok .keyNotFound
            | none => .ok .keyNotFound
        | _ => .ok .keyNotFound

/-- Keys of the rows of an entries table whose expiry has not passed. -/
def liveKeysL (es : List (String × Entry)) (now : Nat) : List String :=
  (es.filter (fun p => p.2.live now)).map (fun p => p.1)

/-- Live keys of the store at `now`, in insertion order: rows whose expiry
has not passed (spec §3 invariant 6). -/
def liveKeys (s : Kycore) (now : Nat) : List String :=
  liveKeysL s.entries now

/-- Modelled from the spec (§4.7 `listkeys`): returns live keys. The
optional regex pattern filter is not modelled here (no theorem below
exercises it). -/
def listkeys (s : Kycore) (now : Nat) : List String :=
  liveKeys s now

/-- Modelled from the spec (§4.6): lazy purge of expired rows — each is
deleted with no archive record and an `expire` history record. -/
def purgeExpired (s : Kycore) (now : Nat) : Kycore :=
  let dead := s.entries.filter (fun p => !(p.2.live now))
  dead.foldl (fun st p => commitMutation st p.1 p.2.value .expire now)
    { s with entries := s.entries.filter (fun p => p.2.live now) }

/-- Modelled from the spec (§4.7 `delete`): moves the live Entry to the
Archive (key is the archive's primary key, so an older tombstone for the
same key is replaced) and removes it from the live entries, committing a
`delete` history record. -/
def delete (s : Kycore) (key : String) (now : Nat) : Except KyError Kycore :=
  if s.wsType ≠ WsType.kv then
    .error (.typeMismatch "'kyd' not supported on this workspace type")
  else
    let k := strTrim key
    match lookupEntry s.entries k with
    | some e =>
        if e.live now then
          .ok (commitMutation
            { s with entries := removeEntry s.entries k,
                     archive := (s.archive.filter (fun a => a.key ≠ k))
                       ++ [⟨k, e.value, now⟩] }
            k e.value .delete now)
        else .error .notFound
    | none => .error .notFound

/-- Reinstate a value under a key: the entry row is written back and a
history record committed. -/
def reinstate (s : Kycore) (k : String) (v : Value) (now : Nat) : Kycore :=
  commitMutation
    { s with entries := setEntry s.entries k ⟨v, now, now, none⟩ }
    k v .create now

/-- Modelled from the spec (§4.5 `restore`): with a timestamp, the latest
HistoryRecord for the key with time ≤ timestamp is reinstated; without a
timestamp, the ArchiveRecord is taken if present (and consumed), else the
newest HistoryRecord. The returned message mirrors the reference tests
("Restored" on success, "No archived version found" otherwise). -/
def restore (s : Kycore) (key : String) (ts : Option Nat) (now : Nat) :
    Except KyError (String × Kycore) :=
  if s.wsType ≠ WsType.kv then
    .error (.typeMismatch "'kyr' not supported on this workspace type")
  else
    let k := strTrim key
    match ts with
    | some t =>
        match (s.history.filter
            (fun r => r.key = k ∧ r.timestamp ≤ t)).getLast? with
        | some r => .ok ("Restored", reinstate s k r.value now)
        | none => .ok ("No archived version found", s)
    | none =>
        match s.archive.find? (fun a => a.key = k) with
        | some a =>
            .ok ("Restored",
              reinstate { s with archive := s.archive.filter (fun b => b.key ≠ k) }
                k a.value now)
        | none =>
            match (s.history.filter (fun r => r.key = k)).getLast? with
            | some r => .ok ("Restored", reinstate s k r.value now)
            | none => .ok ("No archived version found", s)

/-- Modelled from the spec (§4.5): records for one key newest-first;
`"-h"` returns all records newest-first. -/
def get_history (s : Kycore) (key : String) : List HistoryRecord :=
  if key = "-h" then s.history.reverse
  else (s.history.filter (fun r => r.key = key)).reverse

/-- Modelled from the spec (§3 Workspace): the collection type is set at
most once; a later attempt with a different value fails. -/
def set_type (s : Kycore) (t : WsType) : Except KyError Kycore :=
  if s.typeSet then
    if s.wsType = t then .ok s
    else .error (.validation "Workspace type already set")
  else .ok { s with wsType := t, typeSet := true }

/-- The workspace's collection type tag (implicitly kv when never set). -/
def get_type (s : Kycore) : WsType := s.wsType

/-- Insert one collection Item with the next monotone id. -/
def pushItem (s : Kycore) (v : Value) (p : Int) (now : Nat) : Kycore :=
  { s with items := s.items ++ [⟨s.nextItemId, v, p, now⟩],
           nextItemId := s.nextItemId + 1 }

/-- Modelled from the spec (§4.8 `push`): allowed only on collection
workspaces (a keyless push on a kv workspace is the TypeMismatch the tests
phrase as "requires a 'key' argument"); `priority` is required for
priority_queue and rejected for the others. -/
def push (s : Kycore) (v : Value) (priority : Option Int) (now : Nat) :
    Except KyError Kycore :=
  match s.wsType with
  | .kv => .error (.typeMismatch "push requires a 'key' argument in kv mode")
  | .priority_queue =>
      match priority with
      | some p => .ok (pushItem s v p now)
      | none => .error (.validation "priority is required for priority_queue")
  | _ =>
      match priority with
      | some _ => .error (.validation "priority is only supported for priority_queue")
      | none => .ok (pushItem s v 0 now)

/-- One step of the priority-queue head scan: a later item displaces the
current best only when its priority is strictly higher, so the earliest
item among those of maximal priority wins (FIFO tiebreak, spec §8.3). -/
def pqStep (best : Option Item) (it : Item) : Option Item :=
  match best with
  | none => some it
  | some b => if b.priority < it.priority then some it else some b

/-- Head selection under the mode's ordering discipline (spec §3 Item):
queue = ascending item id (items are kept in that order, so the head of the
list); stack = descending item id (the last); priority_queue =
non-increasing priority with FIFO tiebreak (§8.3). -/
def selectHead (t : WsType) (items : List Item) : Option Item :=
  match t with
  | .kv => none
  | .queue => items.head?
  | .stack => items.getLast?
  | .priority_queue => items.foldl pqStep none

/-- Modelled from the spec (§4.8 `pop`): returns and removes the head under
the mode's ordering in one atomic transaction; returns the no-item sentinel
when empty; a TypeMismatch on kv workspaces. -/
def pop (s : Kycore) : Except KyError (Option Value × Kycore) :=
  if s.wsType = WsType.kv then
    .error (.typeMismatch "'pop' not supported on kv workspaces")
  else
    match selectHead s.wsType s.items with
    | none => .ok (none, s)
    | some it =>
        .ok (some it.value,
          { s with items := s.items.eraseP (fun x => x.itemId = it.itemId) })

/-- Modelled from the spec (§4.8 `peek`): the head without removal. -/
def peek (s : Kycore) : Except KyError (Option Value) :=
  if s.wsType = WsType.kv then
    .error (.typeMismatch "'peek' not supported on kv workspaces")
  else .ok ((selectHead s.wsType s.items).map (fun it => it.value))

/-- Modelled from the spec (§4.8 `count` / `len`): current size — live keys
for a kv workspace, item count for a collection. -/
def count (s : Kycore) (now : Nat) : Nat :=
  match s.wsType with
  | .kv => (liveKeys s now).length
  | _ => s.items.length

/-- Modelled from the spec (§4.8 `clear`): removes all items. -/
def clear (s : Kycore) : Except KyError Kycore :=
  if s.wsType = WsType.kv then
    .error (.typeMismatch "'clear' not supported on kv workspaces")
  else .ok { s with items := [] }

/-- Modelled from the spec (§4.7 `save_many`): the entries are executed in
one transaction; on any error the whole batch rolls back (the error is
propagated and no partial state escapes). -/
def save_many (s : Kycore) (items : List (String × Value)) (now : Nat) :
    Except KyError Kycore :=
  match items with
  | [] => .ok s
  | (k, v) :: rest =>
      match save s k v none now with
      | .ok (_, s') => save_many s' rest now
      | .error e => .error e

mutual

/-- Canonical textual serialization of a value (spec §4.1, §9; `json.dumps`
for structured values). Floating literals are rendered from their
mantissa/exponent model. -/
def encode : Value → String
  | .null => "null"
  | .bool true => "true"
  | .bool false => "false"
  | .int n => toString n
  | .float m e => toString m ++ "e" ++ toString e
  | .str s => "\"" ++ s ++ "\""
  | .list xs => "[" ++ encodeList xs ++ "]"
  | .map kvs => "\x7b" ++ encodeMap kvs ++ "\x7d"

/-- Comma-joined serialization of a sequence's elements. -/
def encodeList : VList → String
  | .nil => ""
  | .cons hd .nil => encode hd
  | .cons hd (.cons h2 tl) => encode hd ++ ", " ++ encodeList (.cons h2 tl)

/-- Comma-joined serialization of a mapping's pairs. -/
def encodeMap : VMap → String
  | .nil => ""
  | .cons k v .nil => "\"" ++ k ++ "\": " ++ encode v
  | .cons k v (.cons k2 v2 tl) =>
      "\"" ++ k ++ "\": " ++ encode v ++ ", " ++ encodeMap (.cons k2 v2 tl)

end

/-- The dictionary `export_data` gathers before writing: one pair
`(k, self.getkey(k))` per key yielded by iterating the store
(`ref_impl.py`, `export_data`, the loop over `self`). -/
def exportPairs (s : Kycore) (now : Nat) : List (String × Value) :=
  (liveKeys s now).map (fun k =>
    (k, match getkey s k now with
        | .ok (.found v) => v
        | _ => Value.null))

/-- JSON export (`ref_impl.py`, `export_data`, `fmt="json"`): the gathered
dictionary is dumped to the file; modelled as its key/value pairs, since
`json.dump` followed by `json.load` round-trips the mapping. -/
def export_json (s : Kycore) (now : Nat) : List (String × Value) :=
  exportPairs s now

/-- JSON import (`ref_impl.py`, `import_data`, `.json` branch): the parsed
dictionary's items are saved with `save_many`. -/
def import_json (s : Kycore) (data : List (String × Value)) (now : Nat) :
    Except KyError Kycore :=
  save_many s data now

/-- One CSV cell for a value (`ref_impl.py`, `export_data`, `fmt="csv"`):
`json.dumps(v)` for a mapping or sequence, otherwise the value itself,
stringified by the csv writer the way Python's `str` does (`True`,
`False`, digits, the text of a string). -/
def csvCell : Value → String
  | .list xs => encode (.list xs)
  | .map kvs => encode (.map kvs)
  | .str s => s
  | .bool true => "True"
  | .bool false => "False"
  | .int n => toString n
  | .float m e => toString m ++ "e" ++ toString e
  | .null => "None"

/-- CSV export (`ref_impl.py`, `export_data`, `fmt="csv"`): a header row
`["Key", "Value"]` followed by one `[k, cell]` row per gathered pair. -/
def export_csv (s : Kycore) (now : Nat) : List (List String) :=
  ["Key", "Value"] :: (exportPairs s now).map (fun p => [p.1, csvCell p.2])

/-- Modelled from the spec (§4.1): textual inputs that parse as a
recognized literal (`"true"`, `"false"`, integer) are promoted to the
parsed value; other text is stored as a string. JSON object/array and
float promotion are elided: the development below only exercises scalar
cells and already-parsed inputs. -/
def promote (t : String) : Value :=
  if t = "true" then .bool true
  else if t = "false" then .bool false
  else
    match parseInt t with
    | some n => .int n
    | none => .str t

/-- CSV import (`ref_impl.py`, `import_data`, `.csv` branch): every row
with at least two cells — the header row included — contributes the pair
`(row[0], row[1])`, and the collected pairs are saved with `save_many`;
textual cells go through the Codec's literal promotion. -/
def import_csv (s : Kycore) (rows : List (List String)) (now : Nat) :
    Except KyError Kycore :=
  save_many s
    (rows.filterMap (fun r =>
      match r with
      | k :: v :: _ => some (k, promote v)
      | _ => none)) now

/-- Python mapping protocol, `k in kv`: membership among the live keys.
Modelled from the behavior pinned by `test_dict_interface`. -/
def dictContains (s : Kycore) (k : String) (now : Nat) : Bool :=
  (liveKeys s now).contains k

/-- Python mapping protocol, `len(kv)`: the number of live keys. -/
def dictLen (s : Kycore) (now : Nat) : Nat :=
  (liveKeys s now).length

/-- Python mapping protocol, `list(kv)`: iteration yields the live keys. -/
def dictIter (s : Kycore) (now : Nat) : List String :=
  liveKeys s now

/-- Python mapping protocol, `kv[k] = v`: delegates to `save`. -/
def dictSetItem (s : Kycore) (k : String) (v : Value) (now : Nat) :
    Except KyError Kycore :=
  (save s k v none now).map (fun r => r.2)

/-- Python mapping protocol, `kv[k]`: delegates to `getkey`. -/
def dictGetItem (s : Kycore) (k : String) (now : Nat) :
    Except KyError GetResult :=
  getkey s k now

/-- Python mapping protocol, `del kv[k]`: delegates to `delete`. -/
def dictDelItem (s : Kycore) (k : String) (now : Nat) :
    Except KyError Kycore :=
  delete s k now

/-- A queue workspace as produced by `set_type` on a fresh store. -/
def queue0 : Kycore :=
  { Kycore.init with wsType := .queue, typeSet := true }

/-- A stack workspace as produced by `set_type` on a fresh store. -/
def stack0 : Kycore :=
  { Kycore.init with wsType := .stack, typeSet := true }

/-- A priority-queue workspace as produced by `set_type` on a fresh store. -/
def pq0 : Kycore :=
  { Kycore.init with wsType := .priority_queue, typeSet := true }

/-- Sequential fold of keyless collection pushes. -/
def pushAll (s : Kycore) (vs : List Value) (now : Nat) :
    Except KyError Kycore :=
  match vs with
  | [] => .ok s
  | v :: rest =>
      match push s v none now with
      | .ok s' => pushAll s' rest now
      | .error e => .error e

/-- Sequential fold of prioritised pushes. -/
def pushAllP (s : Kycore) (vps : List (Value × Int)) (now : Nat) :
    Except KyError Kycore :=
  match vps with
  | [] => .ok s
  | (v, p) :: rest =>
      match push s v (some p) now with
      | .ok s' => pushAllP s' rest now
      | .error e => .error e

/-- Repeated `pop`, at most `fuel` times, collecting the returned values in
order; stops at the first no-item sentinel or error. -/
def popAll (s : Kycore) : Nat → List Value × Kycore
  | 0 => ([], s)
  | fuel + 1 =>
      match pop s with
      | .ok (some v, s') =>
          let r := popAll s' fuel
          (v :: r.1, r.2)
      | _ => ([], s)

/-- State of N parallel poppers sharing one store: per-worker result lists
and an active flag that clears when that worker observes the no-item
sentinel and breaks out of its loop (`test_parallel_pop_race_condition`). -/
structure Pool where
  store : Kycore
  workers : List (List Value × Bool)

/-- The pool before any worker runs: the pre-filled store and `n` workers
with empty result lists. -/
def initPool (s : Kycore) (n : Nat) : Pool :=
  ⟨s, List.replicate n ([], true)⟩

/-- One scheduler step: worker `i` performs its atomic `pop` transaction
(spec §4.8: `pop` runs inside one immediate-write transaction, so a thread
step is one whole `pop`). A popped value is appended to that worker's
results; the sentinel deactivates the worker; inactive or absent workers do
nothing. -/
def stepWorker (p : Pool) (i : Nat) : Pool :=
  match p.workers.get? i with
  | none => p
  | some (rs, active) =>
      if active then
        match pop p.store with
        | .ok (some v, s') => ⟨s', p.workers.set i (rs ++ [v], true)⟩
        | .ok (none, s') => ⟨s', p.workers.set i (rs, false)⟩
        | .error _ => p
      else p

/-- Run an arbitrary interleaving: the scheduler picks which worker performs
its next atomic `pop` at each step. -/
def runSched (p : Pool) (sched : List Nat) : Pool :=
  sched.foldl stepWorker p

/-- Sequential saves of successive values to one key. -/
def applySaves (s : Kycore) (k : String) (vs : List Value) (now : Nat) :
    Except KyError Kycore :=
  match vs with
  | [] => .ok s
  | v :: rest =>
      match save s k v none now with
      | .ok (_, s') => applySaves s' k rest now
      | .error e => .error e

/-- The items inserted by a run of keyless pushes on a queue or stack:
consecutive monotone ids from `startId`, default priority 0. -/
def mkItems (vs : List Value) (startId now : Nat) : List Item :=
  match vs with
  | [] => []
  | v :: rest => ⟨startId, v, 0, now⟩ :: mkItems rest (startId + 1) now

/-- The items inserted by a run of prioritised pushes on a priority
queue: consecutive monotone ids from `startId`. -/
def mkItemsP (vps : List (Value × Int)) (startId now : Nat) : List Item :=
  match vps with
  | [] => []
  | (v, p) :: rest => ⟨startId, v, p, now⟩ :: mkItemsP rest (startId + 1) now

/-- The state reached by saving key `"t"` with value `"x"` and a
one-second TTL on a fresh store at time 0: one entry expiring at 1, one
history record. -/
def ttlState : Kycore :=
  { wsType := .kv, typeSet := false,
    entries := [("t", ⟨.str "x", 0, 0, some 1⟩)], items := [],
    nextItemId := 1,
    history := [⟨1, "t", .str "x", .create, 0⟩], nextSeq := 2,
    archive := [] }

/-- The queue reached by pushing the two values `"a"` and `"b"` on a fresh
queue workspace at time 0. -/
def twoJobQueue : Kycore :=
  { wsType := .queue, typeSet := true, entries := [],
    items := [⟨1, .str "a", 0, 0⟩, ⟨2, .str "b", 0, 0⟩],
    nextItemId := 3, history := [], nextSeq := 1, archive := [] }

/-- The single-entry store reached by saving `"csv_key" ↦ "csv_val"` on a
fresh engine at time 0. -/
def csvExportState : Kycore :=
  { wsType := .kv, typeSet := false,
    entries := [("csv_key", ⟨.str "csv_val", 0, 0, none⟩)], items := [],
    nextItemId := 1,
    history := [⟨1, "csv_key", .str "csv_val", .create, 0⟩], nextSeq := 2,
    archive := [] }

/-- The store a fresh engine reaches by importing the CSV export of
`csvExportState`: the header row has been saved as the extra entry
`("Key", "Value")`. -/
def csvImportState : Kycore :=
  { wsType := .kv, typeSet := false,
    entries := [("Key", ⟨.str "Value", 0, 0, none⟩),
                ("csv_key", ⟨.str "csv_val", 0, 0, none⟩)], items := [],
    nextItemId := 1,
    history := [⟨1, "Key", .str "Value", .create, 0⟩,
                ⟨2, "csv_key", .str "csv_val", .create, 0⟩], nextSeq := 3,
    archive := [] }

theorem lookupEntry_setEntry_self (es : List (String × Entry)) (k : String)
    (e : Entry) : lookupEntry (setEntry es k e) k = some e := by
  induction es with
  | nil => simp [setEntry, lookupEntry]
  | cons p rest ih =>
      obtain ⟨k', e'⟩ := p
      by_cases h : k' = k
      · subst h
        simp [setEntry, lookupEntry]
      · simp only [setEntry, if_neg h]
        simpa [lookupEntry, List.find?_cons, h] using ih

/-- C1: in a kv-mode workspace, saving any supported value under a
non-empty (after trimming) key and reading it back returns that same value,
complex values included: the stored shape is exactly the saved one. -/
theorem save_then_getkey_returns_value (s : Kycore) (k : String) (v : Value)
    (now : Nat) (hws : s.wsType = WsType.kv) (hk : strTrim k ≠ "")
    (hv : v ≠ Value.null) :
    ∃ r s', save s k v none now = .ok (r, s') ∧
      getkey s' k now = .ok (.found v) := by
  have hkv : ¬ (s.wsType ≠ WsType.kv) := by simp [hws]
  cases hfind : lookupEntry s.entries (strTrim k) with
  | none =>
      refine ⟨.created,
        commitMutation
          { s with entries := setEntry s.entries (strTrim k) ⟨v, now, now, none⟩ }
          (strTrim k) v .create now, ?_, ?_⟩
      · simp [save, hkv, hk, hv, hfind]
      · simp [getkey, commitMutation, hws, lookupEntry_setEntry_self,
          Entry.live]
  | some e =>
      cases hlive : e.live now with
      | true =>
          by_cases heq : e.value = v
          · refine ⟨.nochange, s, ?_, ?_⟩
            · simp [save, hkv, hk, hv, hfind, hlive, heq]
            · simp [getkey, hkv, hfind, hlive, heq]
          · refine ⟨.overwritten,
              commitMutation
                { s with entries :=
                    setEntry s.entries (strTrim k) ⟨v, e.createdAt, now, none⟩ }
                (strTrim k) v .update now, ?_, ?_⟩
            · simp [save, hkv, hk, hv, hfind, hlive, heq]
            · simp [getkey, commitMutation, hws, lookupEntry_setEntry_self,
                Entry.live]
      | false =>
          refine ⟨.created,
            commitMutation
              { s with entries := setEntry s.entries (strTrim k) ⟨v, now, now, none⟩ }
              (strTrim k) v .create now, ?_, ?_⟩
          · simp [save, hkv, hk, hv, hfind, hlive]
          · simp [getkey, commitMutation, hws, lookupEntry_setEntry_self,
              Entry.live]

/-- Concrete instance of the C1 round-trip: a nested mapping saved on a
fresh store is read back in its original shape. -/
theorem save_then_getkey_returns_value_witness :
    Kycore.init.wsType = WsType.kv ∧ strTrim "user" ≠ "" ∧
      Value.map (.cons "name" (.str "balu") (.cons "age" (.int 30) .nil))
        ≠ Value.null ∧
      ∃ r s', save Kycore.init "user"
          (Value.map (.cons "name" (.str "balu")
            (.cons "age" (.int 30) .nil))) none 0 = .ok (r, s') ∧
        getkey s' "user" 0 =
          .ok (.found (Value.map (.cons "name" (.str "balu")
            (.cons "age" (.int 30) .nil)))) :=
  ⟨rfl, by decide, by decide,
    save_then_getkey_returns_value Kycore.init "user"
      (Value.map (.cons "name" (.str "balu") (.cons "age" (.int 30) .nil)))
      0 rfl (by decide) (by decide)⟩

theorem lookupEntry_setEntry_ne (es : List (String × Entry)) (k k' : String)
    (e : Entry) (h : k' ≠ k) :
    lookupEntry (setEntry es k e) k' = lookupEntry es k' := by
  induction es with
  | nil => simp [setEntry, lookupEntry, List.find?, Ne.symm h]
  | cons p rest ih =>
      obtain ⟨k1, e1⟩ := p
      by_cases h1 : k1 = k
      · subst h1
        simp [setEntry, lookupEntry, List.find?, Ne.symm h]
      · by_cases h2 : k1 = k'
        · subst h2
          simp [setEntry, h1, lookupEntry, List.find?]
        · simp only [setEntry, if_neg h1]
          simpa [lookupEntry, List.find?, h2] using ih

theorem mem_keys_setEntry (es : List (String × Entry)) (k x : String)
    (e : Entry) :
    x ∈ (setEntry es k e).map Prod.fst ↔ x ∈ es.map Prod.fst ∨ x = k := by
  induction es with
  | nil => simp [setEntry, eq_comm]
  | cons p rest ih =>
      obtain ⟨k1, e1⟩ := p
      by_cases h1 : k1 = k
      · subst h1
        simp [setEntry, eq_comm]
        tauto
      · simp [setEntry, h1, ih]
        tauto

theorem setEntry_keys_nodup (es : List (String × Entry)) (k : String)
    (e : Entry) (h : (es.map Prod.fst).Nodup) :
    ((setEntry es k e).map Prod.fst).Nodup := by
  induction es with
  | nil => simp [setEntry]
  | cons p rest ih =>
      obtain ⟨k1, e1⟩ := p
      simp only [List.map_cons, List.nodup_cons] at h
      by_cases h1 : k1 = k
      · subst h1
        simpa [setEntry] using h
      · rw [show (setEntry ((k1, e1) :: rest) k e).map Prod.fst =
          k1 :: (setEntry rest k e).map Prod.fst by simp [setEntry, h1]]
        refine List.nodup_cons.mpr ?_
        constructor
        · rw [mem_keys_setEntry]
          rintro (hm | rfl)
          · exact h.1 hm
          · exact h1 rfl
        · exact ih h.2

theorem lookupEntry_eq_of_mem (es : List (String × Entry)) (k : String)
    (e : Entry) (hnd : (es.map Prod.fst).Nodup) (hm : (k, e) ∈ es) :
    lookupEntry es k = some e := by
  induction es with
  | nil => simp at hm
  | cons p rest ih =>
      obtain ⟨k1, e1⟩ := p
      simp only [List.map_cons, List.nodup_cons] at hnd
      rcases List.mem_cons.mp hm with heq | hm'
      · cases heq
        simp [lookupEntry, List.find?]
      · have hne : k1 ≠ k := by
          rintro rfl
          exact hnd.1 (List.mem_map.mpr ⟨(k1, e), hm', rfl⟩)
        simpa [lookupEntry, List.find?, hne] using ih hnd.2 hm'

theorem mem_liveKeysL_iff (es : List (String × Entry)) (now : Nat)
    (x : String) :
    x ∈ liveKeysL es now ↔ ∃ e, (x, e) ∈ es ∧ e.live now = true := by
  simp only [liveKeysL, List.mem_map, List.mem_filter]
  constructor
  · rintro ⟨⟨k1, e1⟩, ⟨hm, hl⟩, rfl⟩
    exact ⟨e1, hm, hl⟩
  · rintro ⟨e1, hm, hl⟩
    exact ⟨(x, e1), ⟨hm, hl⟩, rfl⟩

theorem not_mem_liveKeysL_of_lookup_dead (es : List (String × Entry))
    (now : Nat) (k : String) (e : Entry)
    (hnd : (es.map Prod.fst).Nodup)
    (hl : lookupEntry es k = some e) (hdead : e.live now = false) :
    k ∉ liveKeysL es now := by
  rw [mem_liveKeysL_iff]
  rintro ⟨e1, hm, hlive⟩
  have := lookupEntry_eq_of_mem es k e1 hnd hm
  rw [hl] at this
  cases this
  rw [hdead] at hlive
  exact Bool.false_ne_true hlive

/-- C7: a kv operation (`save`, `getkey`) on a collection-mode workspace
and a collection operation (`pop`, keyless `push`) on a kv workspace each
fail with a TypeMismatch error; the operation is not performed and no new
state is produced, so the store is left unchanged. -/
theorem wrong_mode_ops_fail_with_type_mismatch (s t : Kycore) (k : String)
    (v w : Value) (ttl : Option Nat) (pr : Option Int) (now : Nat)
    (hs : s.wsType ≠ WsType.kv) (ht : t.wsType = WsType.kv) :
    save s k v ttl now =
      .error (.typeMismatch "'kys' not supported on this workspace type") ∧
    getkey s k now =
      .error (.typeMismatch "'kyg' not supported on this workspace type") ∧
    pop t = .error (.typeMismatch "'pop' not supported on kv workspaces") ∧
    push t w pr now =
      .error (.typeMismatch "push requires a 'key' argument in kv mode") := by
  refine ⟨?_, ?_, ?_, ?_⟩
  · simp [save, hs]
  · simp [getkey, hs]
  · simp [pop, ht]
  · simp [push, ht]

/-- Concrete instance of C7: the four wrong-mode operations on a fresh
queue workspace and a fresh kv workspace. -/
theorem wrong_mode_ops_fail_with_type_mismatch_witness :
    queue0.wsType ≠ WsType.kv ∧ Kycore.init.wsType = WsType.kv ∧
    save queue0 "some_key" (Value.str "val") none 0 =
      .error (.typeMismatch "'kys' not supported on this workspace type") ∧
    getkey queue0 "some_key" 0 =
      .error (.typeMismatch "'kyg' not supported on this workspace type") ∧
    pop Kycore.init =
      .error (.typeMismatch "'pop' not supported on kv workspaces") ∧
    push Kycore.init (Value.str "value_only") none 0 =
      .error (.typeMismatch "push requires a 'key' argument in kv mode") :=
  ⟨by decide, rfl,
    wrong_mode_ops_fail_with_type_mismatch queue0 Kycore.init "some_key"
      (Value.str "val") (Value.str "value_only") none none 0 (by decide) rfl⟩

/-- C8: on a kv workspace, `save` with an empty or whitespace-only key
fails with the empty-key validation error whatever the value, and `save`
of the null marker under a non-empty key fails with the null-value
validation error; an error return produces no new state, so no entry is
created. -/
theorem empty_key_and_null_value_rejected (s : Kycore) (k k' : String)
    (v : Value) (ttl ttl' : Option Nat) (now now' : Nat)
    (hws : s.wsType = WsType.kv) (hk : strTrim k = "")
    (hk' : strTrim k' ≠ "") :
    save s k v ttl now = .error (.validation "Key cannot be empty") ∧
    save s k' Value.null ttl' now' =
      .error (.validation "Value cannot be None") := by
  have hkv : ¬ (s.wsType ≠ WsType.kv) := by simp [hws]
  constructor
  · simp [save, hkv, hk]
  · simp [save, hkv, hk']

/-- Concrete instance of C8: a whitespace-only key and a null value are
both rejected on a fresh store. -/
theorem empty_key_and_null_value_rejected_witness :
    Kycore.init.wsType = WsType.kv ∧ strTrim "   " = "" ∧
      strTrim "key" ≠ "" ∧
    save Kycore.init "   " (Value.str "value") none 0 =
      .error (.validation "Key cannot be empty") ∧
    save Kycore.init "key" Value.null none 0 =
      .error (.validation "Value cannot be None") :=
  ⟨rfl, by decide, by decide,
    empty_key_and_null_value_rejected Kycore.init "   " "key"
      (Value.str "value") none none 0 0 rfl (by decide) (by decide)⟩

/-- C9: a key saved with a TTL stops being observable as soon as its
absolute expiry `now0 + d` is ≤ the reading clock: `getkey` answers
key-not-found and the key is absent from `listkeys`, even though the row
itself is still present (its lazy removal, `purgeExpired`, has not run on
the state being read). The `nochange` save outcome is excluded: it writes
nothing, so it sets no expiry. -/
theorem expired_key_never_observable (s s1 : Kycore) (k : String)
    (v : Value) (r : SaveResult) (d now0 now : Nat)
    (hws : s.wsType = WsType.kv)
    (hnd : (s.entries.map Prod.fst).Nodup)
    (hsave : save s k v (some d) now0 = .ok (r, s1))
    (hr : r ≠ SaveResult.nochange)
    (hexp : now0 + d ≤ now) :
    getkey s1 k now = .ok .keyNotFound ∧ strTrim k ∉ listkeys s1 now := by
  have hkv : ¬ (s.wsType ≠ WsType.kv) := by simp [hws]
  by_cases hk : strTrim k = ""
  · simp [save, hkv, hk] at hsave
  by_cases hv : v = Value.null
  · simp [save, hkv, hk, hv] at hsave
  have hdead : ∀ c u : Nat,
      Entry.live ⟨v, c, u, some (now0 + d)⟩ now = false := by
    intro c u
    simp [Entry.live]
    omega
  have finish : ∀ (c u : Nat) (op : HOp),
      s1 = commitMutation
        { s with entries :=
            (setEntry s.entries (strTrim k) ⟨v, c, u, some (now0 + d)⟩) }
        (strTrim k) v op now0 →
      getkey s1 k now = .ok .keyNotFound ∧
        strTrim k ∉ listkeys s1 now := by
    intro c u op hs1
    have hlk : lookupEntry s1.entries (strTrim k) =
        some ⟨v, c, u, some (now0 + d)⟩ := by
      rw [hs1]
      simp [commitMutation, lookupEntry_setEntry_self]
    constructor
    · simp [getkey, hs1, commitMutation, hws, lookupEntry_setEntry_self,
        hdead]
    · have hnd1 : (s1.entries.map Prod.fst).Nodup := by
        rw [hs1]
        simpa [commitMutation] using setEntry_keys_nodup s.entries _ _ hnd
      simpa [listkeys, liveKeys] using
        not_mem_liveKeysL_of_lookup_dead s1.entries now (strTrim k)
          ⟨v, c, u, some (now0 + d)⟩ hnd1 hlk (hdead c u)
  cases hfind : lookupEntry s.entries (strTrim k) with
  | none =>
      simp [save, hkv, hk, hv, hfind] at hsave
      exact finish now0 now0 .create (by simp [hsave.2])
  | some e =>
      cases hlive : e.live now0 with
      | true =>
          by_cases heq : e.value = v
          · simp [save, hkv, hk, hv, hfind, hlive, heq] at hsave
            exact absurd hsave.1.symm hr
          · simp [save, hkv, hk, hv, hfind, hlive, heq] at hsave
            exact finish e.createdAt now0 .update (by simp [hsave.2])
      | false =>
          simp [save, hkv, hk, hv, hfind, hlive] at hsave
          exact finish now0 now0 .create (by simp [hsave.2])

/-- Concrete instance of C9: a key saved with a one-second TTL at time 0 is
unobservable at time 1 although its row has not been removed. -/
theorem expired_key_never_observable_witness :
    Kycore.init.wsType = WsType.kv ∧
    save Kycore.init "t" (Value.str "x") (some 1) 0 =
      .ok (.created, ttlState) ∧
    (0 + 1 ≤ 1) ∧
    getkey ttlState "t" 1 = .ok .keyNotFound ∧
    strTrim "t" ∉ listkeys ttlState 1 := by
  refine ⟨rfl, by rfl, by decide, ?_⟩
  exact expired_key_never_observable Kycore.init ttlState "t"
    (Value.str "x") .created 1 0 1 rfl (by decide) (by rfl) (by decide)
    (by decide)

theorem lookupEntry_eq_none_of_not_mem (es : List (String × Entry))
    (k : String) (h : k ∉ es.map Prod.fst) : lookupEntry es k = none := by
  induction es with
  | nil => simp [lookupEntry]
  | cons p rest ih =>
      obtain ⟨k1, e1⟩ := p
      simp only [List.map_cons, List.mem_cons, not_or] at h
      simpa [lookupEntry, List.find?, Ne.symm h.1] using ih h.2

theorem lookupEntry_removeEntry_self (es : List (String × Entry))
    (k : String) (hnd : (es.map Prod.fst).Nodup) :
    lookupEntry (removeEntry es k) k = none := by
  induction es with
  | nil => simp [removeEntry, lookupEntry]
  | cons p rest ih =>
      obtain ⟨k1, e1⟩ := p
      simp only [List.map_cons, List.nodup_cons] at hnd
      by_cases h : k1 = k
      · subst h
        rw [show removeEntry ((k1, e1) :: rest) k1 = rest by
          simp [removeEntry, List.eraseP_cons]]
        exact lookupEntry_eq_none_of_not_mem rest k1 hnd.1
      · rw [show removeEntry ((k1, e1) :: rest) k =
            (k1, e1) :: removeEntry rest k by
          simp [removeEntry, List.eraseP_cons, h]]
        simpa [lookupEntry, List.find?, h] using ih hnd.2

theorem removeEntry_keys_nodup (es : List (String × Entry)) (k : String)
    (hnd : (es.map Prod.fst).Nodup) :
    ((removeEntry es k).map Prod.fst).Nodup :=
  hnd.sublist (List.Sublist.map Prod.fst (List.eraseP_sublist es))

theorem find?_key_filter_ne_append (ar : List ArchiveRecord)
    (r : ArchiveRecord) (k : String) (hr : r.key = k) :
    ((ar.filter (fun a => a.key ≠ k)) ++ [r]).find?
      (fun a => a.key = k) = some r := by
  induction ar with
  | nil => simp [List.find?, hr]
  | cons a rest ih =>
      by_cases h : a.key = k
      · simpa [List.filter_cons, h] using ih
      · simpa [List.filter_cons, h, List.find?] using ih

/-- Restore without a timestamp when the archive holds a record for the
key: that record is consumed and its value reinstated (spec §4.5). -/
theorem restore_archive_hit (s : Kycore) (k : String) (a : ArchiveRecord)
    (now : Nat) (hws : s.wsType = WsType.kv)
    (hfind : s.archive.find? (fun b => b.key = strTrim k) = some a) :
    restore s k none now = .ok ("Restored",
      reinstate
        { s with archive := s.archive.filter (fun b => b.key ≠ strTrim k) }
        (strTrim k) a.value now) := by
  have hkv : ¬ (s.wsType ≠ WsType.kv) := by simp [hws]
  simp only [restore, hkv, ite_false, hfind]

/-- C5: deleting a live key moves its Entry (the last saved value) to the
Archive and removes it from the live entries, so a following `getkey`
answers key-not-found; a following `restore` without a timestamp takes the
ArchiveRecord and reinstates exactly that value. The key is assumed
dot-free, so the not-found answer is not shadowed by dotted sub-path
traversal of another entry. -/
theorem delete_then_restore_reinstates_last_value (s : Kycore) (k : String)
    (e : Entry) (now : Nat)
    (hws : s.wsType = WsType.kv)
    (hnd : (s.entries.map Prod.fst).Nodup)
    (hfind : lookupEntry s.entries (strTrim k) = some e)
    (hlive : e.live now = true)
    (hsplit : splitDots (strTrim k) = [strTrim k]) :
    ∃ s1, delete s k now = .ok s1 ∧
      (⟨strTrim k, e.value, now⟩ : ArchiveRecord) ∈ s1.archive ∧
      lookupEntry s1.entries (strTrim k) = none ∧
      getkey s1 k now = .ok .keyNotFound ∧
      ∃ s2, restore s1 k none now = .ok ("Restored", s2) ∧
        getkey s2 k now = .ok (.found e.value) := by
  have hkv : ¬ (s.wsType ≠ WsType.kv) := by simp [hws]
  refine ⟨commitMutation
      { s with entries := removeEntry s.entries (strTrim k),
               archive := (s.archive.filter (fun a => a.key ≠ strTrim k))
                 ++ [⟨strTrim k, e.value, now⟩] }
      (strTrim k) e.value .delete now, ?_, ?_, ?_, ?_, ?_⟩
  · simp [delete, hkv, hfind, hlive]
  · simp [commitMutation]
  · simpa [commitMutation] using
      lookupEntry_removeEntry_self s.entries (strTrim k) hnd
  · have hnone := lookupEntry_removeEntry_self s.entries (strTrim k) hnd
    simp [getkey, commitMutation, hws, hnone, hsplit]
  · have ha : (commitMutation
        { s with entries := removeEntry s.entries (strTrim k),
                 archive := (s.archive.filter (fun a => a.key ≠ strTrim k))
                   ++ [⟨strTrim k, e.value, now⟩] }
        (strTrim k) e.value .delete now).archive.find?
          (fun b => b.key = strTrim k)
        = some ⟨strTrim k, e.value, now⟩ := by
      simp only [commitMutation]
      exact find?_key_filter_ne_append _ _ _ rfl
    have hres := restore_archive_hit _ k _ now (by simp [commitMutation, hws]) ha
    refine ⟨_, hres, ?_⟩
    simp [getkey, reinstate, commitMutation, hws,
      lookupEntry_setEntry_self, Entry.live]

/-- Concrete instance of C5: two saves, a delete and a restore on a fresh
store bring back the second saved value. -/
theorem delete_then_restore_reinstates_last_value_witness :
    ∃ sA r1 sB r2, save Kycore.init "k" (Value.str "v1") none 0
        = .ok (r1, sA) ∧
      save sA "k" (Value.str "v2") none 0 = .ok (r2, sB) ∧
      sB.wsType = WsType.kv ∧
      (sB.entries.map Prod.fst).Nodup ∧
      lookupEntry sB.entries (strTrim "k")
        = some ⟨Value.str "v2", 0, 0, none⟩ ∧
      Entry.live ⟨Value.str "v2", 0, 0, none⟩ 0 = true ∧
      splitDots (strTrim "k") = [strTrim "k"] ∧
      ∃ s1, delete sB "k" 0 = .ok s1 ∧
        (⟨strTrim "k", Value.str "v2", 0⟩ : ArchiveRecord) ∈ s1.archive ∧
        lookupEntry s1.entries (strTrim "k") = none ∧
        getkey s1 "k" 0 = .ok .keyNotFound ∧
        ∃ s2, restore s1 "k" none 0 = .ok ("Restored", s2) ∧
          getkey s2 "k" 0 = .ok (.found (Value.str "v2")) := by
  refine ⟨_, _, _, _, by rfl, by rfl, rfl, by decide, by rfl, by decide,
    by decide, ?_⟩
  exact delete_then_restore_reinstates_last_value _ "k"
    ⟨Value.str "v2", 0, 0, none⟩ 0 rfl (by decide) (by rfl) (by decide)
    (by decide)

theorem applySaves_filter_history (k : String) (vs : List Value) :
    ∀ (s : Kycore) (now : Nat), s.wsType = WsType.kv → strTrim k ≠ "" →
    (∀ v ∈ vs, v ≠ Value.null) → vs.Chain' (fun a b => a ≠ b) →
    (∀ e, lookupEntry s.entries (strTrim k) = some e →
      e.live now = true ∧ ∀ v, vs.head? = some v → e.value ≠ v) →
    ∃ s', applySaves s k vs now = .ok s' ∧ s'.wsType = s.wsType ∧
      (s'.history.filter (fun r => r.key = strTrim k)).map
        (fun r => r.value)
      = (s.history.filter (fun r => r.key = strTrim k)).map
          (fun r => r.value) ++ vs := by
  induction vs with
  | nil =>
      intro s now _ _ _ _ _
      exact ⟨s, rfl, rfl, by simp [applySaves]⟩
  | cons v rest ih =>
      intro s now hws hk hv hch hcur
      have hkv : ¬ (s.wsType ≠ WsType.kv) := by simp [hws]
      have hvne : v ≠ Value.null := hv v (List.mem_cons_self v rest)
      have hheadne : ∀ w, rest.head? = some w → v ≠ w := by
        intro w hw
        cases rest with
        | nil => simp at hw
        | cons w2 l =>
            simp only [List.head?_cons, Option.some.injEq] at hw
            subst hw
            exact (List.chain'_cons.mp hch).1
      have after : ∀ (s1 : Kycore) (e1 : Entry),
          save s k v none now = .ok (.created, s1) ∨
            save s k v none now = .ok (.overwritten, s1) →
          s1.wsType = s.wsType →
          lookupEntry s1.entries (strTrim k) = some e1 →
          e1.value = v → e1.expiresAt = none →
          (s1.history.filter (fun r => r.key = strTrim k)).map
              (fun r => r.value)
            = (s.history.filter (fun r => r.key = strTrim k)).map
                (fun r => r.value) ++ [v] →
          ∃ s', applySaves s k (v :: rest) now = .ok s' ∧
            s'.wsType = s.wsType ∧
            (s'.history.filter (fun r => r.key = strTrim k)).map
                (fun r => r.value)
              = (s.history.filter (fun r => r.key = strTrim k)).map
                  (fun r => r.value) ++ (v :: rest) := by
        intro s1 e1 hsv hws1 hlk1 hval1 hexp1 hfil1
        have hcur1 : ∀ e, lookupEntry s1.entries (strTrim k) = some e →
            e.live now = true ∧ ∀ w, rest.head? = some w → e.value ≠ w := by
          intro e he
          rw [hlk1] at he
          cases he
          refine ⟨?_, ?_⟩
          · show e1.live now = true
            unfold Entry.live
            rw [hexp1]
          · intro w hw
            rw [hval1]
            exact hheadne w hw
        obtain ⟨s', happ, hws', hfil⟩ := ih s1 now (hws1.trans hws) hk
          (fun w hw => hv w (List.mem_cons_of_mem v hw)) hch.tail hcur1
        refine ⟨s', ?_, hws'.trans hws1, ?_⟩
        · rcases hsv with hsv | hsv
          · rw [applySaves, hsv]
            exact happ
          · rw [applySaves, hsv]
            exact happ
        · rw [hfil, hfil1, List.append_assoc]
          rfl
      cases hfind : lookupEntry s.entries (strTrim k) with
      | none =>
          refine after
            (commitMutation
              { s with entries :=
                  (setEntry s.entries (strTrim k) ⟨v, now, now, none⟩) }
              (strTrim k) v .create now)
            ⟨v, now, now, none⟩ (Or.inl ?_) ?_ ?_ rfl rfl ?_
          · simp [save, hkv, hk, hvne, hfind]
          · simp [commitMutation]
          · simp [commitMutation, lookupEntry_setEntry_self]
          · simp [commitMutation, List.filter_append]
      | some e =>
          obtain ⟨hlive, hne⟩ := hcur e hfind
          have hne' : ¬ (e.value = v) := hne v (by simp)
          refine after
            (commitMutation
              { s with entries :=
                  (setEntry s.entries (strTrim k) ⟨v, e.createdAt, now, none⟩) }
              (strTrim k) v .update now)
            ⟨v, e.createdAt, now, none⟩ (Or.inr ?_) ?_ ?_ rfl rfl ?_
          · simp [save, hkv, hk, hvne, hfind, hlive, hne']
          · simp [commitMutation]
          · simp [commitMutation, lookupEntry_setEntry_self]
          · simp [commitMutation, List.filter_append]

/-- C6: starting from a store where the key is absent and has no history,
a sequence of committed saves `v₁ … vₙ` (adjacent values distinct, so each
save commits a mutation rather than answering `nochange`) leaves
`get_history(k)` newest-first: exactly the reverse of the applied
sequence, its first record holding `vₙ`. -/
theorem get_history_is_reverse_of_saves (s : Kycore) (k : String)
    (vs : List Value) (now : Nat)
    (hws : s.wsType = WsType.kv) (hk : strTrim k ≠ "")
    (hnh : strTrim k ≠ "-h")
    (hv : ∀ v ∈ vs, v ≠ Value.null)
    (hch : vs.Chain' (fun a b => a ≠ b))
    (hstart : lookupEntry s.entries (strTrim k) = none)
    (hhist : s.history.filter (fun r => r.key = strTrim k) = []) :
    ∃ s', applySaves s k vs now = .ok s' ∧
      (get_history s' (strTrim k)).map (fun r => r.value) = vs.reverse := by
  obtain ⟨s', happ, _, hfil⟩ := applySaves_filter_history k vs s now hws hk
    hv hch (fun e he => absurd he (by simp [hstart]))
  refine ⟨s', happ, ?_⟩
  rw [get_history, if_neg hnh, List.map_reverse, hfil, hhist]
  simp

/-- Concrete instance of C6: three saves to one key on a fresh store give a
three-record history holding v3, v2, v1 in that order. -/
theorem get_history_is_reverse_of_saves_witness :
    Kycore.init.wsType = WsType.kv ∧ strTrim "audit" ≠ "" ∧
    strTrim "audit" ≠ "-h" ∧
    (∀ v ∈ [Value.str "v1", Value.str "v2", Value.str "v3"],
      v ≠ Value.null) ∧
    [Value.str "v1", Value.str "v2", Value.str "v3"].Chain'
      (fun a b => a ≠ b) ∧
    lookupEntry Kycore.init.entries (strTrim "audit") = none ∧
    Kycore.init.history.filter (fun r => r.key = strTrim "audit") = [] ∧
    ∃ s', applySaves Kycore.init "audit"
        [Value.str "v1", Value.str "v2", Value.str "v3"] 0 = .ok s' ∧
      (get_history s' (strTrim "audit")).map (fun r => r.value)
        = [Value.str "v3", Value.str "v2", Value.str "v1"] := by
  have hch : [Value.str "v1", Value.str "v2", Value.str "v3"].Chain'
      (fun a b => a ≠ b) :=
    List.chain'_cons.mpr ⟨by decide,
      List.chain'_cons.mpr ⟨by decide, List.chain'_singleton _⟩⟩
  refine ⟨rfl, by decide, by decide, by decide, hch, by rfl,
    by rfl, ?_⟩
  exact get_history_is_reverse_of_saves Kycore.init "audit"
    [Value.str "v1", Value.str "v2", Value.str "v3"] 0 rfl (by decide)
    (by decide) (by decide) hch (by rfl) (by rfl)

theorem mkItems_map_value (vs : List Value) :
    ∀ startId now, (mkItems vs startId now).map (fun it => it.value) = vs := by
  induction vs with
  | nil => intro startId now; simp [mkItems]
  | cons v rest ih => intro startId now; simp [mkItems, ih]

theorem mkItems_length (vs : List Value) :
    ∀ startId now, (mkItems vs startId now).length = vs.length := by
  induction vs with
  | nil => intro startId now; simp [mkItems]
  | cons v rest ih => intro startId now; simp [mkItems, ih]

theorem mkItemsP_map (vps : List (Value × Int)) :
    ∀ startId now,
      (mkItemsP vps startId now).map (fun it => (it.value, it.priority))
        = vps := by
  induction vps with
  | nil => intro startId now; simp [mkItemsP]
  | cons vp rest ih =>
      obtain ⟨v, p⟩ := vp
      intro startId now
      simp [mkItemsP, ih]

theorem mkItemsP_length (vps : List (Value × Int)) :
    ∀ startId now, (mkItemsP vps startId now).length = vps.length := by
  induction vps with
  | nil => intro startId now; simp [mkItemsP]
  | cons vp rest ih =>
      obtain ⟨v, p⟩ := vp
      intro startId now
      simp [mkItemsP, ih]

theorem mkItemsP_id_bounds (vps : List (Value × Int)) :
    ∀ startId now x, x ∈ mkItemsP vps startId now →
      startId ≤ x.itemId ∧ x.itemId < startId + vps.length := by
  induction vps with
  | nil => intro startId now x hx; simp [mkItemsP] at hx
  | cons vp rest ih =>
      obtain ⟨v, p⟩ := vp
      intro startId now x hx
      rcases List.mem_cons.mp hx with rfl | hx
      · simp
      · obtain ⟨h1, h2⟩ := ih (startId + 1) now x hx
        constructor
        · omega
        · simp only [List.length_cons]
          omega

theorem mkItemsP_pairwise (vps : List (Value × Int)) :
    ∀ startId now, (mkItemsP vps startId now).Pairwise
      (fun a b => a.itemId < b.itemId) := by
  induction vps with
  | nil => intro startId now; simp [mkItemsP]
  | cons vp rest ih =>
      obtain ⟨v, p⟩ := vp
      intro startId now
      refine List.pairwise_cons.mpr ⟨?_, ih (startId + 1) now⟩
      intro x hx
      have := (mkItemsP_id_bounds rest (startId + 1) now x hx).1
      simpa using lt_of_lt_of_le (Nat.lt_succ_self startId) this

theorem mkItems_eq_mkItemsP (vs : List Value) :
    ∀ startId now, mkItems vs startId now
      = mkItemsP (vs.map (fun v => (v, 0))) startId now := by
  induction vs with
  | nil => intro startId now; simp [mkItems, mkItemsP]
  | cons v rest ih => intro startId now; simp [mkItems, mkItemsP, ih]

theorem pushAll_eq (vs : List Value) :
    ∀ (s : Kycore) (now : Nat),
      s.wsType = WsType.queue ∨ s.wsType = WsType.stack →
      pushAll s vs now = .ok
        { s with items := s.items ++ mkItems vs s.nextItemId now,
                 nextItemId := s.nextItemId + vs.length } := by
  induction vs with
  | nil =>
      intro s now _
      obtain ⟨w, ts, en, its, ni, hi, ns, ar⟩ := s
      simp [pushAll, mkItems]
  | cons v rest ih =>
      intro s now h
      have hpush : push s v none now = .ok (pushItem s v 0 now) := by
        rcases h with h | h <;> simp [push, h]
      obtain ⟨w, ts, en, its, ni, hi, ns, ar⟩ := s
      simp only [pushAll, hpush]
      rw [ih (pushItem ⟨w, ts, en, its, ni, hi, ns, ar⟩ v 0 now) now
        (by simpa [pushItem] using h)]
      simp [pushItem, mkItems]
      omega

theorem pushAllP_eq (vps : List (Value × Int)) :
    ∀ (s : Kycore) (now : Nat),
      s.wsType = WsType.priority_queue →
      pushAllP s vps now = .ok
        { s with items := s.items ++ mkItemsP vps s.nextItemId now,
                 nextItemId := s.nextItemId + vps.length } := by
  induction vps with
  | nil =>
      intro s now _
      obtain ⟨w, ts, en, its, ni, hi, ns, ar⟩ := s
      simp [pushAllP, mkItemsP]
  | cons vp rest ih =>
      obtain ⟨v, p⟩ := vp
      intro s now h
      have hpush : push s v (some p) now = .ok (pushItem s v p now) := by
        simp [push, h]
      obtain ⟨w, ts, en, its, ni, hi, ns, ar⟩ := s
      simp only [pushAllP, hpush]
      rw [ih (pushItem ⟨w, ts, en, its, ni, hi, ns, ar⟩ v p now) now
        (by simpa [pushItem] using h)]
      simp [pushItem, mkItemsP]
      omega

theorem eraseP_ne_middle (l1 : List Item) (m : Item) (l2 : List Item)
    (h : ∀ x ∈ l1, x.itemId ≠ m.itemId) :
    (l1 ++ m :: l2).eraseP (fun x => x.itemId = m.itemId) = l1 ++ l2 := by
  induction l1 with
  | nil => simp [List.eraseP_cons]
  | cons a rest ih =>
      have ha : a.itemId ≠ m.itemId := h a (List.mem_cons_self a rest)
      rw [List.cons_append, List.eraseP_cons_of_neg (by simpa using ha),
        ih (fun x hx => h x (List.mem_cons_of_mem a hx))]
      rfl

theorem popAll_queue : ∀ (fuel : Nat) (s : Kycore),
    s.wsType = WsType.queue → s.items.length ≤ fuel →
    popAll s fuel
      = (s.items.map (fun it => it.value), { s with items := [] }) := by
  intro fuel
  induction fuel with
  | zero =>
      intro s hws hlen
      obtain ⟨w, ts, en, its, ni, hi, ns, ar⟩ := s
      have h0 : its = [] := List.length_eq_zero.mp (Nat.le_zero.mp hlen)
      subst h0
      simp [popAll]
  | succ f ih =>
      intro s hws hlen
      obtain ⟨w, ts, en, its, ni, hi, ns, ar⟩ := s
      simp at hws
      subst hws
      cases its with
      | nil => simp [popAll, pop, selectHead]
      | cons it rest =>
          have hpop : pop ⟨.queue, ts, en, it :: rest, ni, hi, ns, ar⟩
              = .ok (some it.value,
                  ⟨.queue, ts, en, rest, ni, hi, ns, ar⟩) := by
            simp [pop, selectHead]
          simp only [popAll, hpop]
          rw [ih ⟨.queue, ts, en, rest, ni, hi, ns, ar⟩ rfl
            (by simpa using hlen)]
          simp

theorem popAll_stack : ∀ (fuel : Nat) (s : Kycore),
    s.wsType = WsType.stack →
    s.items.Pairwise (fun a b => a.itemId < b.itemId) →
    s.items.length ≤ fuel →
    popAll s fuel
      = ((s.items.map (fun it => it.value)).reverse,
         { s with items := [] }) := by
  intro fuel
  induction fuel with
  | zero =>
      intro s hws _ hlen
      obtain ⟨w, ts, en, its, ni, hi, ns, ar⟩ := s
      have h0 : its = [] := List.length_eq_zero.mp (Nat.le_zero.mp hlen)
      subst h0
      simp [popAll]
  | succ f ih =>
      intro s hws hpw hlen
      obtain ⟨w, ts, en, its, ni, hi, ns, ar⟩ := s
      simp at hws
      subst hws
      simp only at hpw hlen
      rcases List.eq_nil_or_concat its with rfl | ⟨l, it, rfl⟩
      · simp [popAll, pop, selectHead]
      · simp only [List.concat_eq_append] at hpw hlen ⊢
        have hids : ∀ x ∈ l, x.itemId ≠ it.itemId := by
          intro x hx
          have := (List.pairwise_append.mp hpw).2.2 x hx it
            (List.mem_singleton_self it)
          omega
        have herase : (l ++ [it]).eraseP
            (fun x => x.itemId = it.itemId) = l := by
          simpa using eraseP_ne_middle l it [] hids
        have hpop : pop ⟨.stack, ts, en, l ++ [it], ni, hi, ns, ar⟩
            = .ok (some it.value, ⟨.stack, ts, en, l, ni, hi, ns, ar⟩) := by
          simp [pop, selectHead, List.getLast?_concat, herase]
        simp only [popAll, hpop]
        rw [ih ⟨.stack, ts, en, l, ni, hi, ns, ar⟩ rfl
          (hpw.sublist (List.sublist_append_left l [it]))
          (by simp at hlen ⊢; omega)]
        simp

theorem pqFold_split (l : List Item) : ∀ b : Item,
    ∃ m l1 l2, l.foldl pqStep (some b) = some m ∧
      b :: l = l1 ++ m :: l2 ∧
      (∀ x ∈ l1, x.priority < m.priority) ∧
      (∀ x ∈ l2, x.priority ≤ m.priority) := by
  induction l with
  | nil =>
      intro b
      exact ⟨b, [], [], rfl, rfl, by simp, by simp⟩
  | cons it rest ih =>
      intro b
      by_cases h : b.priority < it.priority
      · obtain ⟨m, l1, l2, hf, hs, h1, h2⟩ := ih it
        have hm : it.priority ≤ m.priority := by
          cases l1 with
          | nil =>
              simp only [List.nil_append] at hs
              injection hs with hitm _
              rw [hitm]
          | cons a t =>
              simp only [List.cons_append] at hs
              injection hs with hita _
              exact le_of_lt (hita ▸ h1 a (List.mem_cons_self a t))
        refine ⟨m, b :: l1, l2, ?_, ?_, ?_, h2⟩
        · rw [List.foldl_cons, show pqStep (some b) it = some it by
            simp [pqStep, h]]
          exact hf
        · rw [List.cons_append, ← hs]
        · intro x hx
          rcases List.mem_cons.mp hx with rfl | hx
          · exact lt_of_lt_of_le h hm
          · exact h1 x hx
      · obtain ⟨m, l1, l2, hf, hs, h1, h2⟩ := ih b
        have hstep : pqStep (some b) it = some b := by simp [pqStep, h]
        cases l1 with
        | nil =>
            simp only [List.nil_append] at hs
            injection hs with hbm hrest
            refine ⟨b, [], it :: rest, ?_, by simp, by simp, ?_⟩
            · rw [List.foldl_cons, hstep, hf, ← hbm]
            · intro x hx
              rcases List.mem_cons.mp hx with rfl | hx
              · exact le_of_not_lt h
              · have := h2 x (hrest ▸ hx)
                rw [← hbm] at this
                exact this
        | cons a t =>
            simp only [List.cons_append] at hs
            injection hs with hba hrest
            refine ⟨m, b :: it :: t, l2, ?_, ?_, ?_, h2⟩
            · rw [List.foldl_cons, hstep]
              exact hf
            · rw [hrest]
              simp
            · have hbm : b.priority < m.priority := by
                apply h1
                rw [hba]
                exact List.mem_cons_self a t
              intro x hx
              rcases List.mem_cons.mp hx with rfl | hx
              · exact hbm
              rcases List.mem_cons.mp hx with rfl | hx
              · exact lt_of_le_of_lt (le_of_not_lt h) hbm
              · exact h1 x (List.mem_cons_of_mem a hx)

theorem popAll_pq : ∀ (fuel : Nat) (s : Kycore),
    s.wsType = WsType.priority_queue →
    s.items.Pairwise (fun a b => a.itemId < b.itemId) →
    s.items.length ≤ fuel →
    ∃ ms : List Item,
      popAll s fuel
        = (ms.map (fun it => it.value), { s with items := [] }) ∧
      ms.Perm s.items ∧
      ms.Pairwise (fun a b => b.priority < a.priority ∨
        (a.priority = b.priority ∧ a.itemId < b.itemId)) := by
  intro fuel
  induction fuel with
  | zero =>
      intro s hws hpw hlen
      obtain ⟨w, ts, en, its, ni, hi, ns, ar⟩ := s
      have h0 : its = [] := List.length_eq_zero.mp (Nat.le_zero.mp hlen)
      subst h0
      exact ⟨[], by simp [popAll], by simp, by simp⟩
  | succ f ih =>
      intro s hws hpw hlen
      obtain ⟨w, ts, en, its, ni, hi, ns, ar⟩ := s
      simp at hws
      subst hws
      simp only at hpw hlen
      cases its with
      | nil => exact ⟨[], by simp [popAll, pop, selectHead], by simp, by simp⟩
      | cons it rest =>
          obtain ⟨m, l1, l2, hf, hs, h1, h2⟩ := pqFold_split rest it
          have hpw' : (l1 ++ m :: l2).Pairwise
              (fun a b => a.itemId < b.itemId) := hs ▸ hpw
          have hids : ∀ x ∈ l1, x.itemId ≠ m.itemId := by
            intro x hx
            have := (List.pairwise_append.mp hpw').2.2 x hx m
              (List.mem_cons_self m l2)
            omega
          have herase : (it :: rest).eraseP
              (fun x => x.itemId = m.itemId) = l1 ++ l2 := by
            rw [hs]
            exact eraseP_ne_middle l1 m l2 hids
          have hpop : pop ⟨.priority_queue, ts, en, it :: rest, ni, hi,
                ns, ar⟩
              = .ok (some m.value,
                  ⟨.priority_queue, ts, en, l1 ++ l2, ni, hi, ns, ar⟩) := by
            have hsel : selectHead WsType.priority_queue (it :: rest)
                = some m := by
              simp only [selectHead, List.foldl_cons,
                show pqStep none it = some it from rfl]
              exact hf
            simp [pop, hsel, herase]
          have hlen' : (l1 ++ l2).length ≤ f := by
            have := congrArg List.length hs
            simp only [List.length_cons, List.length_append] at this hlen ⊢
            omega
          obtain ⟨ms, hpa, hperm, hsort⟩ :=
            ih ⟨.priority_queue, ts, en, l1 ++ l2, ni, hi, ns, ar⟩ rfl
              (hpw'.sublist ((List.sublist_cons_self m l2).append_left l1))
              hlen'
          refine ⟨m :: ms, ?_, ?_, ?_⟩
          · simp only [popAll, hpop]
            rw [hpa]
            simp
          · have hp1 : (m :: ms).Perm (m :: (l1 ++ l2)) := hperm.cons m
            have hp2 : (m :: (l1 ++ l2)).Perm (l1 ++ m :: l2) :=
              List.perm_middle.symm
            have hp3 := hp1.trans hp2
            rw [← hs] at hp3
            exact hp3
          · refine List.pairwise_cons.mpr ⟨?_, hsort⟩
            intro x hx
            have hx' : x ∈ l1 ++ l2 := hperm.subset hx
            rcases List.mem_append.mp hx' with hx1 | hx2
            · exact Or.inl (h1 x hx1)
            · rcases lt_or_eq_of_le (h2 x hx2) with hlt | heqp
              · exact Or.inl hlt
              · refine Or.inr ⟨heqp.symm, ?_⟩
                have hml2 := (List.pairwise_append.mp hpw').2.1
                exact (List.pairwise_cons.mp hml2).1 x hx2

/-- C2: on a queue workspace the pushed values pop back in FIFO order; on
a stack in LIFO order; on a priority queue the popped items are a
permutation of the pushed ones, pairwise ordered by strictly higher
priority first with equal priorities broken by smaller (earlier) item id —
non-increasing priority with FIFO tiebreak; in every mode, popping the
emptied collection returns the no-item sentinel rather than a value and
leaves the state unchanged. -/
theorem collection_pop_discipline (vs : List Value)
    (vps : List (Value × Int)) (now : Nat) :
    (set_type Kycore.init .queue = .ok queue0 ∧
      ∃ sq, pushAll queue0 vs now = .ok sq ∧
        sq.items.map (fun it => it.value) = vs ∧
        popAll sq vs.length = (vs, { sq with items := [] }) ∧
        pop { sq with items := [] } = .ok (none, { sq with items := [] })) ∧
    (set_type Kycore.init .stack = .ok stack0 ∧
      ∃ ss, pushAll stack0 vs now = .ok ss ∧
        ss.items.map (fun it => it.value) = vs ∧
        popAll ss vs.length = (vs.reverse, { ss with items := [] }) ∧
        pop { ss with items := [] } = .ok (none, { ss with items := [] })) ∧
    (set_type Kycore.init .priority_queue = .ok pq0 ∧
      ∃ sp, ∃ ms : List Item, pushAllP pq0 vps now = .ok sp ∧
        sp.items.map (fun it => (it.value, it.priority)) = vps ∧
        popAll sp vps.length
          = (ms.map (fun it => it.value), { sp with items := [] }) ∧
        ms.Perm sp.items ∧
        ms.Pairwise (fun a b => b.priority < a.priority ∨
          (a.priority = b.priority ∧ a.itemId < b.itemId)) ∧
        pop { sp with items := [] }
          = .ok (none, { sp with items := [] })) := by
  refine ⟨⟨rfl, ?_⟩, ⟨rfl, ?_⟩, ⟨rfl, ?_⟩⟩
  · refine ⟨_, pushAll_eq vs queue0 now (Or.inl rfl), ?_, ?_, ?_⟩
    · simp [queue0, Kycore.init, mkItems_map_value]
    · rw [popAll_queue vs.length _ rfl
        (by simp [queue0, Kycore.init, mkItems_length])]
      simp [queue0, Kycore.init, mkItems_map_value]
    · simp [pop, selectHead, queue0, Kycore.init]
  · refine ⟨_, pushAll_eq vs stack0 now (Or.inr rfl), ?_, ?_, ?_⟩
    · simp [stack0, Kycore.init, mkItems_map_value]
    · rw [popAll_stack vs.length _ rfl
        (by
          simp only [stack0, Kycore.init, List.nil_append,
            mkItems_eq_mkItemsP]
          exact mkItemsP_pairwise _ _ now)
        (by simp [stack0, Kycore.init, mkItems_length])]
      simp [stack0, Kycore.init, mkItems_map_value]
    · simp [pop, selectHead, stack0, Kycore.init]
  · have hpush := pushAllP_eq vps pq0 now rfl
    obtain ⟨ms, hpa, hperm, hsort⟩ := popAll_pq vps.length
      { pq0 with items := pq0.items ++ mkItemsP vps pq0.nextItemId now,
                 nextItemId := pq0.nextItemId + vps.length } rfl
      (by
        simp only [pq0, Kycore.init, List.nil_append]
        exact mkItemsP_pairwise _ _ now)
      (by simp [pq0, Kycore.init, mkItemsP_length])
    refine ⟨_, ms, hpush, ?_, hpa, hperm, hsort, ?_⟩
    · simp [pq0, Kycore.init, mkItemsP_map]
    · simp [pop, selectHead, pq0, Kycore.init]

theorem pop_queue_nil (s : Kycore) (hws : s.wsType = WsType.queue)
    (h : s.items = []) : pop s = .ok (none, s) := by
  simp [pop, hws, selectHead, h]

theorem pop_queue_cons (s : Kycore) (it : Item) (rest : List Item)
    (hws : s.wsType = WsType.queue) (hit : s.items = it :: rest) :
    pop s = .ok (some it.value, { s with items := rest }) := by
  simp [pop, hws, selectHead, hit]

theorem flatten_set_perm (ws : List (List Value × Bool)) :
    ∀ (i : Nat) (rs : List Value) (b b' : Bool) (v : Value),
    ws[i]? = some (rs, b) →
    (((ws.set i (rs ++ [v], b')).map Prod.fst).flatten).Perm
      (v :: (ws.map Prod.fst).flatten) := by
  induction ws with
  | nil => intro i rs b b' v h; simp at h
  | cons w rest ih =>
      intro i rs b b' v h
      cases i with
      | zero =>
          simp only [List.getElem?_cons_zero, Option.some.injEq] at h
          subst h
          simp only [List.set_cons_zero, List.map_cons, List.flatten_cons]
          have he : rs ++ [v] ++ (rest.map Prod.fst).flatten
              = rs ++ v :: (rest.map Prod.fst).flatten := by
            simp
          rw [he]
          exact List.perm_middle
      | succ j =>
          simp only [List.getElem?_cons_succ] at h
          simp only [List.set_cons_succ, List.map_cons, List.flatten_cons]
          have hp := (ih j rs b b' v h).append_left w.1
          refine hp.trans ?_
          exact List.perm_middle

theorem flatten_set_flag (ws : List (List Value × Bool)) :
    ∀ (i : Nat) (rs : List Value) (b b' : Bool),
    ws[i]? = some (rs, b) →
    ((ws.set i (rs, b')).map Prod.fst).flatten
      = (ws.map Prod.fst).flatten := by
  induction ws with
  | nil => intro i rs b b' h; simp at h
  | cons w rest ih =>
      intro i rs b b' h
      cases i with
      | zero =>
          simp only [List.getElem?_cons_zero, Option.some.injEq] at h
          subst h
          simp
      | succ j =>
          simp only [List.getElem?_cons_succ] at h
          simp only [List.set_cons_succ, List.map_cons, List.flatten_cons]
          rw [ih j rs b b' h]

theorem flatten_replicate_nil (n : Nat) :
    ((List.replicate n (([] : List Value), true)).map Prod.fst).flatten
      = [] := by
  induction n with
  | zero => simp
  | succ m ih => simp [List.replicate_succ, ih]

theorem stepWorker_inv (p : Pool) (i : Nat)
    (hws : p.store.wsType = WsType.queue)
    (hpw : p.store.items.Pairwise (fun a b => a.itemId < b.itemId))
    (hinv : ∀ w ∈ p.workers, w.2 = false → p.store.items = []) :
    (stepWorker p i).store.wsType = WsType.queue ∧
    (stepWorker p i).store.items.Pairwise
      (fun a b => a.itemId < b.itemId) ∧
    (∀ w ∈ (stepWorker p i).workers, w.2 = false →
      (stepWorker p i).store.items = []) ∧
    ((((stepWorker p i).workers.map Prod.fst).flatten)
        ++ (stepWorker p i).store.items.map (fun it => it.value)).Perm
      (((p.workers.map Prod.fst).flatten)
        ++ p.store.items.map (fun it => it.value)) := by
  cases hget : p.workers[i]? with
  | none =>
      rw [show stepWorker p i = p by simp [stepWorker, hget]]
      exact ⟨hws, hpw, hinv, List.Perm.refl _⟩
  | some w =>
      obtain ⟨rs, active⟩ := w
      cases hact : active with
      | false =>
          subst hact
          rw [show stepWorker p i = p by simp [stepWorker, hget]]
          exact ⟨hws, hpw, hinv, List.Perm.refl _⟩
      | true =>
          subst hact
          cases hits : p.store.items with
          | nil =>
              have hpop := pop_queue_nil p.store hws hits
              have hstep : stepWorker p i
                  = ⟨p.store, p.workers.set i (rs, false)⟩ := by
                simp [stepWorker, hget, hpop]
              rw [hstep]
              refine ⟨hws, hpw, ?_, ?_⟩
              · intro w _ _
                exact hits
              · rw [flatten_set_flag p.workers i rs true false hget]
                simp [hits]
          | cons it rest =>
              have hpop := pop_queue_cons p.store it rest hws hits
              have hstep : stepWorker p i
                  = ⟨{ p.store with items := rest },
                     p.workers.set i (rs ++ [it.value], true)⟩ := by
                simp [stepWorker, hget, hpop]
              rw [hstep]
              refine ⟨hws, ?_, ?_, ?_⟩
              · exact (hits ▸ hpw).sublist (List.sublist_cons_self it rest)
              · intro w hw hwf
                rcases List.mem_or_eq_of_mem_set hw with hw' | rfl
                · exact absurd (hinv w hw' hwf) (by simp [hits])
                · simp at hwf
              · have hj := flatten_set_perm p.workers i rs true true
                  it.value hget
                simp only [hits, List.map_cons]
                exact (hj.append_right _).trans List.perm_middle.symm

theorem runSched_inv (sched : List Nat) :
    ∀ (p : Pool),
    p.store.wsType = WsType.queue →
    p.store.items.Pairwise (fun a b => a.itemId < b.itemId) →
    (∀ w ∈ p.workers, w.2 = false → p.store.items = []) →
    (runSched p sched).store.wsType = WsType.queue ∧
    (runSched p sched).store.items.Pairwise
      (fun a b => a.itemId < b.itemId) ∧
    (∀ w ∈ (runSched p sched).workers, w.2 = false →
      (runSched p sched).store.items = []) ∧
    ((((runSched p sched).workers.map Prod.fst).flatten)
        ++ (runSched p sched).store.items.map (fun it => it.value)).Perm
      (((p.workers.map Prod.fst).flatten)
        ++ p.store.items.map (fun it => it.value)) := by
  induction sched with
  | nil =>
      intro p hws hpw hinv
      exact ⟨hws, hpw, hinv, List.Perm.refl _⟩
  | cons i rest ih =>
      intro p hws hpw hinv
      obtain ⟨h1, h2, h3, h4⟩ := stepWorker_inv p i hws hpw hinv
      obtain ⟨g1, g2, g3, g4⟩ := ih (stepWorker p i) h1 h2 h3
      exact ⟨g1, g2, g3, g4.trans h4⟩

/-- C3: one queue-mode store is pre-filled with the pushed values and N
workers each loop "pop until the no-item sentinel"; a pop is one atomic
transaction (spec §4.8), so an interleaving of the threads is a schedule
of whole pops. Under every schedule after which at least one worker has
finished (observed the sentinel), the queue is empty and the values
collected across all workers are a permutation of the pushed multiset —
no value lost — and when the pushed values are distinct no value is
returned twice. -/
theorem parallel_pop_no_loss_no_duplication (vs : List Value)
    (n now : Nat) (sched : List Nat) (sq : Kycore)
    (hpush : pushAll queue0 vs now = .ok sq)
    (hdone : ∃ w ∈ (runSched (initPool sq n) sched).workers,
      w.2 = false) :
    (runSched (initPool sq n) sched).store.items = [] ∧
    (((runSched (initPool sq n) sched).workers.map
        Prod.fst).flatten).Perm vs ∧
    (vs.Nodup →
      (((runSched (initPool sq n) sched).workers.map
        Prod.fst).flatten).Nodup) := by
  have heq := pushAll_eq vs queue0 now (Or.inl rfl)
  rw [hpush] at heq
  injection heq with heq
  obtain ⟨h1, h2, h3, h4⟩ := runSched_inv sched (initPool sq n)
    (by
      show sq.wsType = WsType.queue
      rw [heq]
      rfl)
    (by
      show sq.items.Pairwise _
      rw [heq]
      simp only [queue0, Kycore.init, List.nil_append, mkItems_eq_mkItemsP]
      exact mkItemsP_pairwise _ _ now)
    (by
      intro w hw hwf
      have hww := List.eq_of_mem_replicate hw
      rw [hww] at hwf
      exact absurd hwf (by simp))
  obtain ⟨w0, hw0, hwf0⟩ := hdone
  have hempty : (runSched (initPool sq n) sched).store.items = [] :=
    h3 w0 hw0 hwf0
  have hinitvals : (initPool sq n).store.items.map (fun it => it.value)
      = vs := by
    show sq.items.map (fun it => it.value) = vs
    rw [heq]
    simp [queue0, Kycore.init, mkItems_map_value]
  have hinitflat : (((initPool sq n).workers.map Prod.fst)).flatten
      = [] := by
    simp only [initPool]
    exact flatten_replicate_nil n
  rw [hempty, hinitvals, hinitflat] at h4
  simp only [List.map_nil, List.append_nil, List.nil_append] at h4
  exact ⟨hempty, h4, fun hnd => (h4.nodup_iff).mpr hnd⟩

/-- Concrete instance of C3: two workers drain a two-job queue under the
schedule worker 0, worker 1, worker 0; the last step returns the sentinel
and finishes worker 0, the queue is empty, and the collected values are a
permutation of the pushed ones. -/
theorem parallel_pop_no_loss_no_duplication_witness :
    pushAll queue0 [Value.str "a", Value.str "b"] 0 = .ok twoJobQueue ∧
    (∃ w ∈ (runSched (initPool twoJobQueue 2) [0, 1, 0]).workers,
      w.2 = false) ∧
    (runSched (initPool twoJobQueue 2) [0, 1, 0]).store.items = [] ∧
    (((runSched (initPool twoJobQueue 2) [0, 1, 0]).workers.map
        Prod.fst).flatten).Perm [Value.str "a", Value.str "b"] ∧
    ([Value.str "a", Value.str "b"].Nodup →
      (((runSched (initPool twoJobQueue 2) [0, 1, 0]).workers.map
        Prod.fst).flatten).Nodup) :=
  ⟨by rfl, by decide,
    parallel_pop_no_loss_no_duplication [Value.str "a", Value.str "b"]
      2 0 [0, 1, 0] twoJobQueue (by rfl) (by decide)⟩

theorem lookupEntry_eq_none_iff (es : List (String × Entry)) (k : String) :
    lookupEntry es k = none ↔ k ∉ es.map Prod.fst := by
  induction es with
  | nil => simp [lookupEntry]
  | cons p rest ih =>
      obtain ⟨k1, e1⟩ := p
      by_cases h : k1 = k
      · subst h
        simp [lookupEntry, List.find?]
      · simp only [lookupEntry, List.find?, List.map_cons, List.mem_cons]
        rw [show (decide (k1 = k)) = false by simp [h]]
        simp only [lookupEntry] at ih
        rw [ih]
        simp [Ne.symm h]

theorem setEntry_of_not_mem (es : List (String × Entry)) (k : String)
    (e : Entry) (h : k ∉ es.map Prod.fst) :
    setEntry es k e = es ++ [(k, e)] := by
  induction es with
  | nil => simp [setEntry]
  | cons p rest ih =>
      obtain ⟨k1, e1⟩ := p
      simp only [List.map_cons, List.mem_cons, not_or] at h
      simp [setEntry, Ne.symm h.1, ih h.2]

theorem save_many_fresh (pairs : List (String × Value)) :
    ∀ (s : Kycore) (now : Nat), s.wsType = WsType.kv →
    (∀ p ∈ pairs, strTrim p.1 = p.1 ∧ p.1 ≠ "" ∧ p.2 ≠ Value.null) →
    (pairs.map Prod.fst).Nodup →
    (∀ p ∈ pairs, lookupEntry s.entries p.1 = none) →
    ∃ s', save_many s pairs now = .ok s' ∧
      s'.wsType = s.wsType ∧
      s'.entries = s.entries
        ++ pairs.map (fun p => (p.1, (⟨p.2, now, now, none⟩ : Entry))) := by
  induction pairs with
  | nil =>
      intro s now _ _ _ _
      exact ⟨s, rfl, rfl, by simp [save_many]⟩
  | cons p rest ih =>
      obtain ⟨k, v⟩ := p
      intro s now hws hok hnd habs
      have hkv : ¬ (s.wsType ≠ WsType.kv) := by simp [hws]
      obtain ⟨htrim, hne, hvne⟩ := hok (k, v) (List.mem_cons_self _ _)
      simp only at htrim hne hvne
      have hfind : lookupEntry s.entries k = none :=
        habs (k, v) (List.mem_cons_self _ _)
      have hsv : save s k v none now = .ok (.created,
          commitMutation
            { s with entries :=
                (setEntry s.entries k ⟨v, now, now, none⟩) }
            k v .create now) := by
        simp [save, hkv, htrim, hne, hvne, hfind]
      have hset : setEntry s.entries k ⟨v, now, now, none⟩
          = s.entries ++ [(k, ⟨v, now, now, none⟩)] :=
        setEntry_of_not_mem s.entries k _
          ((lookupEntry_eq_none_iff s.entries k).mp hfind)
      simp only [List.map_cons, List.nodup_cons] at hnd
      obtain ⟨s', hsm, hws', hen⟩ := ih
        (commitMutation
          { s with entries :=
              (setEntry s.entries k ⟨v, now, now, none⟩) }
          k v .create now) now
        (by simp [commitMutation, hws])
        (fun q hq => hok q (List.mem_cons_of_mem _ hq))
        hnd.2
        (by
          intro q hq
          rw [commitMutation]
          simp only
          rw [hset, lookupEntry_eq_none_iff]
          simp only [List.map_append, List.mem_append]
          rintro (hm | hm)
          · exact absurd ((lookupEntry_eq_none_iff s.entries q.1).mp
              (habs q (List.mem_cons_of_mem _ hq))) (by simp [hm])
          · simp at hm
            exact hnd.1 (hm ▸ List.mem_map.mpr ⟨q, hq, rfl⟩))
      refine ⟨s', ?_, by rw [hws']; simp [commitMutation], ?_⟩
      · rw [save_many, hsv]
        exact hsm
      · rw [hen]
        simp [commitMutation, hset]

theorem getkey_live_of_lookup (s : Kycore) (k : String) (e : Entry)
    (now : Nat) (hws : s.wsType = WsType.kv) (htrim : strTrim k = k)
    (hlk : lookupEntry s.entries k = some e) (hlive : e.live now = true) :
    getkey s k now = .ok (.found e.value) := by
  have hkv : ¬ (s.wsType ≠ WsType.kv) := by simp [hws]
  simp [getkey, hkv, htrim, hlk, hlive]

theorem liveKeysL_fresh (now : Nat) (ps : List (String × Value)) :
    liveKeysL (ps.map (fun p =>
      (p.1, (⟨p.2, now, now, none⟩ : Entry)))) now = ps.map Prod.fst := by
  induction ps with
  | nil => simp [liveKeysL]
  | cons p rest ih =>
      simp [liveKeysL, Entry.live] at ih ⊢
      exact ih

/-- C4 counterexample: the CSV round-trip of `export_data` and
`import_data` (ref_impl.py) does not yield an equal `listkeys()`:
exporting the single-entry store writes the header row `["Key","Value"]`,
and the CSV import treats every row with two cells — the header included —
as a pair to save, so the fresh engine lists the extra key `"Key"`. -/
theorem export_import_csv_adds_header_key :
    save Kycore.init "csv_key" (Value.str "csv_val") none 0
        = .ok (.created, csvExportState) ∧
    export_csv csvExportState 0
        = [["Key", "Value"], ["csv_key", "csv_val"]] ∧
    import_csv Kycore.init (export_csv csvExportState 0) 0
        = .ok csvImportState ∧
    listkeys csvExportState 0 = ["csv_key"] ∧
    listkeys csvImportState 0 = ["Key", "csv_key"] ∧
    getkey csvImportState "Key" 0 = .ok (.found (Value.str "Value")) ∧
    listkeys csvImportState 0 ≠ listkeys csvExportState 0 :=
  ⟨by rfl, by rfl, by rfl, by rfl, by rfl, by rfl, by decide⟩

/-- C4 (amended): for the JSON format the round-trip holds — exporting a
kv store and importing the parsed dictionary into a fresh engine
reproduces the live state: `listkeys` agree and every live key reads back
the same value. (The CSV format violates the original claim: its import
also saves the header row, see the counterexample above.) -/
theorem export_import_json_roundtrip (s : Kycore) (now : Nat)
    (hws : s.wsType = WsType.kv)
    (hnd : (s.entries.map Prod.fst).Nodup)
    (hkeys : ∀ p ∈ s.entries, strTrim p.1 = p.1 ∧ p.1 ≠ "")
    (hvals : ∀ p ∈ s.entries, p.2.value ≠ Value.null) :
    ∃ s2, import_json Kycore.init (export_json s now) now = .ok s2 ∧
      listkeys s2 now = listkeys s now ∧
      ∀ k ∈ listkeys s now, getkey s2 k now = getkey s k now := by
  have hpair : ∀ p ∈ exportPairs s now,
      strTrim p.1 = p.1 ∧ p.1 ≠ "" ∧ p.2 ≠ Value.null ∧
      getkey s p.1 now = .ok (.found p.2) := by
    intro p hp
    obtain ⟨k, hkmem, rfl⟩ := List.mem_map.mp hp
    rw [liveKeys, mem_liveKeysL_iff] at hkmem
    obtain ⟨e, hm, hlive⟩ := hkmem
    obtain ⟨htrim, hne⟩ := hkeys (k, e) hm
    have hvne := hvals (k, e) hm
    have hlk := lookupEntry_eq_of_mem s.entries k e hnd hm
    have hget := getkey_live_of_lookup s k e now hws htrim hlk hlive
    simp only [hget]
    exact ⟨htrim, hne, hvne, trivial⟩
  have hkeys' : (exportPairs s now).map Prod.fst = liveKeys s now := by
    simp only [exportPairs, List.map_map]
    exact List.map_id'' (fun x => rfl) _
  have hndp : ((exportPairs s now).map Prod.fst).Nodup := by
    rw [hkeys']
    exact hnd.sublist ((List.filter_sublist s.entries).map _)
  obtain ⟨s2, hsm, hws2, hen2⟩ := save_many_fresh (exportPairs s now)
    Kycore.init now rfl
    (fun p hp => ⟨(hpair p hp).1, (hpair p hp).2.1, (hpair p hp).2.2.1⟩)
    hndp
    (fun p _ => by simp [Kycore.init, lookupEntry])
  simp only [Kycore.init, List.nil_append] at hen2
  have hlive2 : listkeys s2 now = listkeys s now := by
    rw [listkeys, liveKeys, hen2, liveKeysL_fresh, hkeys']
    rfl
  refine ⟨s2, hsm, hlive2, ?_⟩
  intro k hk
  rw [listkeys, liveKeys, mem_liveKeysL_iff] at hk
  obtain ⟨e, hm, hlive⟩ := hk
  obtain ⟨htrim, hne⟩ := hkeys (k, e) hm
  have hlk := lookupEntry_eq_of_mem s.entries k e hnd hm
  have hget := getkey_live_of_lookup s k e now hws htrim hlk hlive
  have hpmem : (k, e.value) ∈ exportPairs s now := by
    refine List.mem_map.mpr ⟨k, ?_, ?_⟩
    · rw [liveKeys, mem_liveKeysL_iff]
      exact ⟨e, hm, hlive⟩
    · simp [hget]
  have hmem2 : (k, (⟨e.value, now, now, none⟩ : Entry)) ∈ s2.entries := by
    rw [hen2]
    exact List.mem_map.mpr ⟨(k, e.value), hpmem, rfl⟩
  have hnd2 : (s2.entries.map Prod.fst).Nodup := by
    rw [hen2]
    simpa [List.map_map, Function.comp] using hndp
  have hlk2 := lookupEntry_eq_of_mem s2.entries k _ hnd2 hmem2
  have hget2 := getkey_live_of_lookup s2 k _ now
    (by rw [hws2]; rfl) htrim hlk2 (by simp [Entry.live])
  rw [hget, hget2]

/-- Concrete instance of the amended C4: the JSON round-trip of a
single-entry store into a fresh engine preserves listkeys and the value. -/
theorem export_import_json_roundtrip_witness :
    csvExportState.wsType = WsType.kv ∧
    (csvExportState.entries.map Prod.fst).Nodup ∧
    (∀ p ∈ csvExportState.entries, strTrim p.1 = p.1 ∧ p.1 ≠ "") ∧
    (∀ p ∈ csvExportState.entries, p.2.value ≠ Value.null) ∧
    ∃ s2, import_json Kycore.init (export_json csvExportState 0) 0
        = .ok s2 ∧
      listkeys s2 0 = listkeys csvExportState 0 ∧
      ∀ k ∈ listkeys csvExportState 0,
        getkey s2 k 0 = getkey csvExportState k 0 :=
  ⟨rfl, by decide, by decide, by decide,
    export_import_json_roundtrip csvExportState 0 rfl (by decide)
      (by decide) (by decide)⟩

/-- C10: the Python mapping protocol agrees with the named operations on a
kv workspace: `kv[k] = v`, `kv[k]` and `del kv[k]` delegate to `save`,
`getkey` and `delete`; `k in kv` holds exactly when `k` is among the live
keys, equivalently (for an undotted trimmed key) exactly when `getkey`
finds a value; `len(kv)` equals the number of keys `listkeys` returns; and
iterating the store yields exactly `listkeys`. -/
theorem dict_protocol_matches_named_ops (s : Kycore) (k : String)
    (v : Value) (now : Nat)
    (hws : s.wsType = WsType.kv)
    (hnd : (s.entries.map Prod.fst).Nodup)
    (htrim : strTrim k = k)
    (hsplit : splitDots k = [k]) :
    dictSetItem s k v now = (save s k v none now).map (fun r => r.2) ∧
    dictGetItem s k now = getkey s k now ∧
    dictDelItem s k now = delete s k now ∧
    (dictContains s k now = true ↔ k ∈ listkeys s now) ∧
    (dictContains s k now = true ↔
      ∃ w, getkey s k now = .ok (.found w)) ∧
    dictLen s now = (listkeys s now).length ∧
    dictIter s now = listkeys s now := by
  have hkv : ¬ (s.wsType ≠ WsType.kv) := by simp [hws]
  have hmem : dictContains s k now = true ↔ k ∈ listkeys s now := by
    simp [dictContains, listkeys]
  refine ⟨rfl, rfl, rfl, hmem, ?_, rfl, rfl⟩
  rw [hmem]
  constructor
  · intro hk
    rw [listkeys, liveKeys, mem_liveKeysL_iff] at hk
    obtain ⟨e, hm, hlive⟩ := hk
    have hlk := lookupEntry_eq_of_mem s.entries k e hnd hm
    exact ⟨e.value, getkey_live_of_lookup s k e now hws htrim hlk hlive⟩
  · rintro ⟨w, hw⟩
    rw [listkeys, liveKeys, mem_liveKeysL_iff]
    cases hfind : lookupEntry s.entries k with
    | none => simp [getkey, hkv, htrim, hfind, hsplit] at hw
    | some e =>
        cases hlive : e.live now with
        | false => simp [getkey, hkv, htrim, hfind, hlive] at hw
        | true =>
            refine ⟨e, ?_, hlive⟩
            rw [lookupEntry] at hfind
            cases hp : s.entries.find? (fun q => q.1 = k) with
            | none =>
                rw [hp] at hfind
                exact Option.noConfusion hfind
            | some p =>
                rw [hp] at hfind
                simp only [Option.map_some', Option.some.injEq] at hfind
                have hpk : p.1 = k := by
                  have hfs := List.find?_some hp
                  simpa using hfs
                have hpm := List.mem_of_find?_eq_some hp
                have hpe : p = (k, e) := by
                  obtain ⟨p1, p2⟩ := p
                  simp only at hpk hfind
                  rw [hpk, hfind]
                exact hpe ▸ hpm

/-- Concrete instance of C10: the mapping protocol and the named
operations agree on a one-entry store and its key. -/
theorem dict_protocol_matches_named_ops_witness :
    csvExportState.wsType = WsType.kv ∧
    (csvExportState.entries.map Prod.fst).Nodup ∧
    strTrim "csv_key" = "csv_key" ∧
    splitDots "csv_key" = ["csv_key"] ∧
    (dictSetItem csvExportState "csv_key" (Value.str "z") 0
        = (save csvExportState "csv_key" (Value.str "z") none 0).map
            (fun r => r.2) ∧
      dictGetItem csvExportState "csv_key" 0
        = getkey csvExportState "csv_key" 0 ∧
      dictDelItem csvExportState "csv_key" 0
        = delete csvExportState "csv_key" 0 ∧
      (dictContains csvExportState "csv_key" 0 = true ↔
        "csv_key" ∈ listkeys csvExportState 0) ∧
      (dictContains csvExportState "csv_key" 0 = true ↔
        ∃ w, getkey csvExportState "csv_key" 0 = .ok (.found w)) ∧
      dictLen csvExportState 0 = (listkeys csvExportState 0).length ∧
      dictIter csvExportState 0 = listkeys csvExportState 0) :=
  ⟨rfl, by decide, by decide, by decide,
    dict_protocol_matches_named_ops csvExportState "csv_key"
      (Value.str "z") 0 rfl (by decide) (by decide) (by decide)⟩

end Kycli

